import Mathlib

/-!
# Verification of the `big_integer` library (src/bigint-Kolya28)

Shallow embedding of `big_integer.h` / `big_integer.cpp`: the magnitude
`_data` (a `std::vector<uint32_t>`, little-endian, index 0 least significant)
becomes `List Nat` whose entries are kept below `2^32` by the same narrowing
casts the source performs (written `% DB`), and `_negative` becomes a `Bool`.
`uint64_t` intermediates cannot overflow in the source except in
`abs_subtract`'s wrap-around `diff`, which is modelled with an explicit
`% 2^64`.  Out-of-bounds `std::vector` writes (which `abs_subtract` can
perform on its output when the output buffer is the shorter operand) are
modelled as lost stores, matching `List.set` past the length and the sizes
the vector reports afterwards.
-/

namespace BI

/-- `DIGIT_BASE` = 2^32. -/
def DB : Nat := 4294967296

/-- One past `UINT64_MAX`: 2^64, the wrap modulus of `double_digit_type`. -/
def DD : Nat := 18446744073709551616

/-- `std::numeric_limits<size_t>::max()`, the default `max_size` cap of
`abs_subtract`. -/
def SZMAX : Nat := 18446744073709551615

/-- Value of a little-endian magnitude in base `2^32`. -/
def valNat : List Nat → Nat
  | [] => 0
  | d :: l => d + DB * valNat l

/-- `big_integer`: limb vector `_data` plus sign flag `_negative`. -/
structure BigInt where
  data : List Nat
  negative : Bool
deriving DecidableEq, Repr

/-- `big_integer::is_zero()`: `_data.empty()`. -/
def isZero (a : BigInt) : Bool := a.data.isEmpty

/-- `big_integer::is_negative()`: `_negative && !is_zero()`. -/
def isNeg (a : BigInt) : Bool := a.negative && !(isZero a)

/-- `big_integer::negate()`: flip `_negative`. -/
def negate (a : BigInt) : BigInt := { a with negative := !a.negative }

/-- The integer a `big_integer` state denotes (observers mask the sign flag of
an empty magnitude). -/
def value (a : BigInt) : Int :=
  if isNeg a then -(valNat a.data : Int) else (valNat a.data : Int)

/-- `big_integer::trim()`: pop most-significant zero limbs. -/
def trimMag (l : List Nat) : List Nat := (l.reverse.dropWhile (· == 0)).reverse

/-- All limbs fit `uint32_t`. -/
def BoundedMag (l : List Nat) : Prop := ∀ d ∈ l, d < DB

/-- Canonical-form invariant on a magnitude: no leading (most significant)
zero limb. -/
def NoTopZero (l : List Nat) : Prop := l.getLast? ≠ some 0

/-- A well-formed `big_integer` state: bounded limbs in canonical form. -/
def Wf (a : BigInt) : Prop := BoundedMag a.data ∧ NoTopZero a.data

/-- A well-formed state whose sign flag is also clean on zero and whose limb
count fits `size_t` (a `std::vector`'s size always does). -/
def Clean (a : BigInt) : Prop :=
  Wf a ∧ (a.data = [] → a.negative = false) ∧ a.data.length ≤ SZMAX

/-! ## Unsigned primitives (4.C) -/

/-- The ripple loops of `big_integer::abs_add` after the length swap: first
argument is the (not shorter) receiver magnitude.  Covers the paired loop, the
`resize` to the receiver's length, the receiver-only loop, and the final carry
push; the `uint64_t` accumulator cannot wrap. -/
def absAddGo : List Nat → List Nat → Nat → List Nat
  | a :: as, b :: bs, c => (a + b + c) % DB :: absAddGo as bs ((a + b + c) / DB)
  | a :: as, [], c => (a + c) % DB :: absAddGo as [] ((a + c) / DB)
  | [], b :: bs, c => (b + c) % DB :: absAddGo [] bs ((b + c) / DB)
  | [], [], c => if c = 0 then [] else [c % DB]

/-- `big_integer::abs_add(rhs, output)` on magnitudes; the source first
recurses with the operands swapped when the receiver is shorter. -/
def absAddMag (x y : List Nat) : List Nat :=
  if x.length < y.length then absAddGo y x 0 else absAddGo x y 0

/-- First loop of `abs_subtract`: `n` remaining iterations, current index `i`,
running borrow; `diff` is the wrapping `uint64_t` subtraction.  Writes through
`List.set` (stores past the output's length are lost, as in the source's
out-of-bounds vector writes). -/
def absSubGo1 (self rhs : List Nat) : Nat → Nat → Nat → List Nat → List Nat × Nat
  | 0, _i, borrow, out => (out, borrow)
  | n + 1, i, borrow, out =>
    let diff := (self.getD i 0 + DD - (rhs.getD i 0 + borrow)) % DD
    let borrow2 := if diff > DB - 1 then 1 else 0
    absSubGo1 self rhs n (i + 1) borrow2 (out.set i (diff % DB))

/-- Second loop of `abs_subtract`: runs while the borrow persists. -/
def absSubGo2 (self : List Nat) : Nat → Nat → Nat → List Nat → List Nat
  | 0, _i, _borrow, out => out
  | n + 1, i, borrow, out =>
    if borrow = 0 then out
    else
      let diff := (self.getD i 0 + DD - borrow) % DD
      let borrow2 := if diff > DB - 1 then 1 else 0
      absSubGo2 self n (i + 1) borrow2 (out.set i (diff % DB))

/-- `big_integer::abs_subtract(rhs, output, max_size)` on magnitudes.  `self`
is the receiver (minuend), `out0` the output vector's entry state (at every
call site the output aliases `self` or `rhs`).  Ends with `output.trim()`. -/
def absSubMag (self rhs out0 : List Nat) (maxSize : Nat) : List Nat :=
  let sz1 := min maxSize rhs.length
  let p := absSubGo1 self rhs sz1 0 0 out0
  let sz2 := min maxSize self.length
  trimMag (absSubGo2 self (sz2 - sz1) sz1 p.2 p.1)

/-- `abs_subtract` at the `big_integer` level: also performs
`output._negative = is_negative()` (the receiver's sign). -/
def absSubtract (self rhs out : BigInt) (maxSize : Nat) : BigInt :=
  { data := absSubMag self.data rhs.data out.data maxSize, negative := isNeg self }

/-- `abs_add_int` / the carry loop shared with the final push (`s` is the
running `uint64_t` accumulator, never ≥ 2^33 in the source). -/
def absAddIntGo : List Nat → Nat → List Nat
  | [], s => if s = 0 then [] else [s % DB]
  | d :: ds, s => (d + s) % DB :: absAddIntGo ds ((d + s) / DB)

/-- `big_integer::abs_add_int(rhs)` (no trim in the source). -/
def absAddIntMag (l : List Nat) (rhs : Nat) : List Nat := absAddIntGo l rhs

/-- Borrow loop of `abs_sub_int`. -/
def absSubIntGo : List Nat → Nat → List Nat
  | [], _borrow => []
  | d :: ds, borrow =>
    let diff := (d + DD - borrow) % DD
    diff % DB :: absSubIntGo ds (if diff > DB - 1 then 1 else 0)

/-- `big_integer::abs_sub_int(rhs)`, ending in `trim()`. -/
def absSubIntMag (l : List Nat) (rhs : Nat) : List Nat := trimMag (absSubIntGo l rhs)

/-- Scaling loop of `abs_mul_int` (`s = d * rhs + s` in `uint64_t`, which
cannot wrap for 32-bit `d`, `rhs`). -/
def absMulIntGo : List Nat → Nat → Nat → List Nat
  | [], _k, s => if s = 0 then [] else [s % DB]
  | d :: ds, k, s => (d * k + s) % DB :: absMulIntGo ds k ((d * k + s) / DB)

/-- `big_integer::abs_mul_int(rhs)`, ending in `trim()`. -/
def absMulIntMag (l : List Nat) (k : Nat) : List Nat := trimMag (absMulIntGo l k 0)

/-- Loop of `abs_divide_int` on the reversed (most-significant-first)
magnitude: `cur = (remainder << 32) | limb`, write back `cur / val`, keep
`cur % val`. -/
def absDivIntGo (k : Nat) : List Nat → Nat → List Nat × Nat
  | [], rem => ([], rem)
  | d :: ds, rem =>
    let cur := rem * DB + d
    let p := absDivIntGo k ds (cur % k)
    ((cur / k) % DB :: p.1, p.2)

/-- `big_integer::abs_divide_int(val)`: (new magnitude, remainder); ends in
`trim()`. -/
def absDivIntMag (l : List Nat) (k : Nat) : List Nat × Nat :=
  let p := absDivIntGo k l.reverse 0
  (trimMag p.1.reverse, p.2)

/-- Inner loop of `abs_mul`: `j` sweeps the (distinct) `rhs` buffer,
accumulating `data_i * rhs[j] + _data[i+j] + carry`; returns the buffer and
the final carry (a `digit_type`, hence the `% DB` at its assignment). -/
def absMulInner (rhs : List Nat) (dataI i : Nat) : Nat → Nat → Nat → List Nat → List Nat × Nat
  | 0, _j, carry, data => (data, carry)
  | n + 1, j, carry, data =>
    let res := dataI * rhs.getD j 0 + data.getD (i + j) 0 + carry
    absMulInner rhs dataI i n (j + 1) ((res / DB) % DB) (data.set (i + j) (res % DB))

/-- Outer loop of `abs_mul` (rhs a distinct buffer). -/
def absMulOuter (rhs : List Nat) (rhsSize : Nat) : Nat → Nat → List Nat → List Nat
  | 0, _i, data => data
  | n + 1, i, data =>
    let dataI := data.getD (i + rhsSize) 0
    let p := absMulInner rhs dataI i rhsSize 0 0 data
    absMulOuter rhs rhsSize n (i + 1) (p.1.set (i + rhsSize) p.2)

/-- `big_integer::abs_mul(rhs)` on magnitudes, `rhs` a distinct object: the
buffer gains `rhs.size()` leading zero limbs, then the schoolbook loops run,
then `trim()`. -/
def absMulMag (self rhs : List Nat) : List Nat :=
  trimMag (absMulOuter rhs rhs.length self.length 0 (List.replicate rhs.length 0 ++ self))

/-- Inner loop of `abs_mul` when `rhs` aliases `*this` (the `a *= a` call):
`rhs._data[j]` reads the evolving shared buffer. -/
def absMulSelfInner (dataI i : Nat) : Nat → Nat → Nat → List Nat → List Nat × Nat
  | 0, _j, carry, data => (data, carry)
  | n + 1, j, carry, data =>
    let res := dataI * data.getD j 0 + data.getD (i + j) 0 + carry
    absMulSelfInner dataI i n (j + 1) ((res / DB) % DB) (data.set (i + j) (res % DB))

/-- Outer loop of the self-aliased `abs_mul`. -/
def absMulSelfOuter (rhsSize : Nat) : Nat → Nat → List Nat → List Nat
  | 0, _i, data => data
  | n + 1, i, data =>
    let dataI := data.getD (i + rhsSize) 0
    let p := absMulSelfInner dataI i rhsSize 0 0 data
    absMulSelfOuter rhsSize n (i + 1) (p.1.set (i + rhsSize) p.2)

/-- `abs_mul(rhs)` with `&rhs == this`: `this_size` and `rhs_size` are both
captured before the prefix insertion. -/
def absMulSelfMag (self : List Nat) : List Nat :=
  trimMag (absMulSelfOuter self.length self.length 0 (List.replicate self.length 0 ++ self))

/-! ## Signed arithmetic (4.D) -/

/-- The high-limb-stripping loop of `operator+=` (equal sizes, opposite
signs), on the reversed receiver magnitude: pop while the receiver's top limb
equals `rhs._data[_data.size() - 1]`. -/
def stripEqHighRev (y : List Nat) : List Nat → List Nat
  | [] => []
  | d :: rest => if d == y.getD rest.length 0 then stripEqHighRev y rest else d :: rest

/-- `_data` after the stripping loop. -/
def stripEqHigh (x y : List Nat) : List Nat := (stripEqHighRev y x.reverse).reverse

/-- `big_integer::operator+=(rhs)` for a `rhs` distinct from `*this`; the
result is the mutated `*this`. -/
def addAssign (a rhs : BigInt) : BigInt :=
  if isNeg a == isNeg rhs then { a with data := absAddMag a.data rhs.data }
  else if a.data.length == rhs.data.length then
    let s := stripEqHigh a.data rhs.data
    let a1 : BigInt := { a with data := s }
    if s.isEmpty then a1
    else if s.getLastD 0 > rhs.data.getD (s.length - 1) 0 then
      absSubtract a1 rhs a1 s.length
    else
      absSubtract rhs a1 a1 s.length
  else if a.data.length > rhs.data.length then
    absSubtract a rhs a SZMAX
  else
    absSubtract rhs a a SZMAX

/-- `operator-=`: `(negate() += rhs).negate()` (distinct `rhs`). -/
def subAssign (a rhs : BigInt) : BigInt := negate (addAssign (negate a) rhs)

/-- `a -= a` with `rhs` aliased to `*this`: after `negate()` both views agree
in sign, so `operator+=` takes the `abs_add` branch with receiver, `rhs` and
output all the same object; each buffer index is read before it is written
there, so the aliased run computes `abs_add` of the (negated) value with
itself. -/
def subAssignSelf (a : BigInt) : BigInt :=
  negate (addAssign (negate a) (negate a))

/-- `operator*=`: `_negative ^= rhs.is_negative()`, then `abs_mul` (distinct
`rhs`). -/
def mulAssign (a rhs : BigInt) : BigInt :=
  { data := absMulMag a.data rhs.data, negative := xor a.negative (isNeg rhs) }

/-- `a *= a` with `rhs` aliased to `*this`. -/
def mulAssignSelf (a : BigInt) : BigInt :=
  { data := absMulSelfMag a.data, negative := xor a.negative (isNeg a) }

/-- Binary `operator+` (copy of `a`, then `+=`). -/
def opAdd (a b : BigInt) : BigInt := addAssign a b

/-- Binary `operator-`. -/
def opSub (a b : BigInt) : BigInt := subAssign a b

/-- Binary `operator*`. -/
def opMul (a b : BigInt) : BigInt := mulAssign a b

/-- Prefix `operator++`: `abs_add_int(1)` when not negative, else
`abs_sub_int(1)`. -/
def incAssign (a : BigInt) : BigInt :=
  if !(isNeg a) then { a with data := absAddIntMag a.data 1 }
  else { a with data := absSubIntMag a.data 1 }

/-- Prefix `operator--`: decrement from zero sets `_negative` and pushes limb
1; otherwise `(++negate()).negate()`. -/
def decAssign (a : BigInt) : BigInt :=
  if isZero a then { data := [1], negative := true }
  else negate (incAssign (negate a))

/-- `operator~`: `--big_integer(*this).negate()`. -/
def opNot (a : BigInt) : BigInt := decAssign (negate a)

/-- Unary `operator-`: `big_integer(*this).negate()`. -/
def opNeg (a : BigInt) : BigInt := negate a

/-! ## Shifts -/

/-- `operator<<=(rhs)` for `rhs ≥ 0`: prepend `rhs / 32` zero limbs, then
`abs_mul_int(1 << (rhs % 32))`. -/
def shlAssign (a : BigInt) (s : Nat) : BigInt :=
  { a with data := absMulIntMag (List.replicate (s / 32) 0 ++ a.data) (2 ^ (s % 32)) }

/-- `operator>>=(rhs)` for `rhs ≥ 0`: erase `rhs / 32` low limbs (clearing
everything when that strictly exceeds the size), `abs_divide_int(1 << (rhs %
32))`, then `abs_add_int(1)` if `is_negative()` — evaluated after the
division. -/
def shrAssign (a : BigInt) (s : Nat) : BigInt :=
  let toErase := s / 32
  if toErase > a.data.length then { a with data := [] }
  else
    let d2 := (absDivIntMag (a.data.drop toErase) (2 ^ (s % 32))).1
    let a2 : BigInt := { a with data := d2 }
    if isNeg a2 then { a2 with data := absAddIntMag d2 1 } else a2

/-! ## Bitwise layer (4.E) -/

/-- `big_integer::twos_complement(neg, digit, carry)`: returns the converted
digit and the updated carry (`res = carry + ~digit` in `uint64_t`). -/
def twosComp (neg : Bool) (digit carry : Nat) : Nat × Nat :=
  if !neg then (digit, carry)
  else
    let res := carry + (DB - 1 - digit)
    (res % DB, res / DB)

/-- Limb loop of `bitwise_operation`.  `negA` is the raw `_negative` flag of
`*this`: the loop calls `is_negative()` after the `resize`, when `_data` is
non-empty whenever an iteration runs, so the mask reduces to the flag. -/
def bitwiseGo (opN : Nat → Nat → Nat) (negA negB negR : Bool) (rhs : List Nat) :
    Nat → Nat → Nat → Nat → Nat → List Nat → List Nat
  | 0, _i, _ca, _cb, _cr, data => data
  | n + 1, i, ca, cb, cr, data =>
    let a := twosComp negA (data.getD i 0) ca
    let b := twosComp negB (rhs.getD i 0) cb
    let r := twosComp negR (opN a.1 b.1) cr
    bitwiseGo opN negA negB negR rhs n (i + 1) a.2 b.2 r.2 (data.set i r.1)

/-- `big_integer::bitwise_operation(rhs, op)`: the functor is applied both to
the `is_negative()` bits (giving the result's flag) and to the converted
limbs; `_data` is resized up to the longer operand; the final carry out of the
result-side conversion is discarded when the loop ends. -/
def bitwiseOperation (opB : Bool → Bool → Bool) (opN : Nat → Nat → Nat) (a rhs : BigInt) : BigInt :=
  let negR := opB (isNeg a) (isNeg rhs)
  let n := max a.data.length rhs.data.length
  let data0 := a.data ++ List.replicate (n - a.data.length) 0
  { data := trimMag (bitwiseGo opN a.negative (isNeg rhs) negR rhs.data n 0 1 1 1 data0),
    negative := negR }

/-- `operator&`. -/
def opAnd (a b : BigInt) : BigInt := bitwiseOperation and Nat.land a b

/-- `operator|`. -/
def opOr (a b : BigInt) : BigInt := bitwiseOperation or Nat.lor a b

/-- `operator^`. -/
def opXor (a b : BigInt) : BigInt := bitwiseOperation xor Nat.xor a b

/-! ## Comparison (4.F) -/

/-- `std::lexicographical_compare` on limb ranges. -/
def lexLt : List Nat → List Nat → Bool
  | [], [] => false
  | [], _ :: _ => true
  | _ :: _, [] => false
  | x :: xs, y :: ys => if x < y then true else if y < x then false else lexLt xs ys

/-- `operator>`: sign cases, then size, then reversed lexicographic compare
(inverted for negatives). -/
def gtB (a b : BigInt) : Bool :=
  if !(isNeg a) && isNeg b then true
  else if isNeg a && !(isNeg b) then false
  else if a.data.length != b.data.length then
    xor (decide (a.data.length > b.data.length)) (isNeg a)
  else if isNeg a then lexLt a.data.reverse b.data.reverse
  else lexLt b.data.reverse a.data.reverse

/-- `operator<`: `operator>(b, a)`. -/
def ltB (a b : BigInt) : Bool := gtB b a

/-- `operator>=`: `!operator>(b, a)` via `operator<=`. -/
def geB (a b : BigInt) : Bool := !(gtB b a)

/-- `operator==`. -/
def eqB (a b : BigInt) : Bool := (isNeg a == isNeg b) && a.data == b.data

/-! ## Construction from built-in integers (4.H) -/

/-- `big_integer(unsigned long long, bool)`: push the low limb when non-zero,
then the high limb when non-zero (`val < 2^64`). -/
def bigOfULL (v : Nat) (neg : Bool) : BigInt :=
  { negative := neg,
    data := if v = 0 then []
            else if v / DB = 0 then [v % DB]
            else [v % DB, (v / DB) % DB] }

/-- `big_integer(long long)`: negative inputs store `|val|` as the unsigned
magnitude (the `LLONG_MIN` special case also yields `natAbs`). -/
def ofIntB (v : Int) : BigInt := bigOfULL v.natAbs (decide (v < 0))

/-- Default-constructed `big_integer()`. -/
def zeroB : BigInt := { data := [], negative := false }

/-- `big_integer(1)`. -/
def oneB : BigInt := bigOfULL 1 false

/-! ## Division (Knuth-style, 4.D) -/

/-- Floor base-2 logarithm, structurally fuelled (32 steps cover every
`uint32_t`); agrees with `Nat.log2` whenever `n < 2 ^ fuel`. -/
def log2u : Nat → Nat → Nat
  | 0, _ => 0
  | f + 1, n => if n ≥ 2 then log2u f (n / 2) + 1 else 0

/-- `big_integer::normalize()`'s shift count from the divisor's top limb.
`std::log2` on a `uint32_t` in `[1, 2^31)` is a double computation whose
error (a few ulp, < 2^-40 here) is far below the distance from
`31 - log2(back)` to the nearest integer except when `back` is a power of two
(where `log2` is exact), so the `int32_t` truncation is `31 - ⌊log2 back⌋`
for powers of two and `30 - ⌊log2 back⌋` otherwise; the subsequent
`(back << k) < DIGIT_BASE / 2` check then adjusts `k` exactly as in the
source. -/
def normalizeK (back : Nat) : Nat :=
  if back ≥ DB / 2 then 0
  else
    let k := if 2 ^ log2u 32 back = back then 31 - log2u 32 back else 30 - log2u 32 back
    if (back * 2 ^ k) % DB < DB / 2 then k + 1 else k

/-- `big_integer::normalize()`: compute `k`, shift `*this` (the divisor) left
by it (the `back ≥ DIGIT_BASE/2` case returns 0 before any shift). -/
def normalizeB (r : BigInt) : Nat × BigInt :=
  let back := r.data.getLastD 0
  if back ≥ DB / 2 then (0, r)
  else
    let k := normalizeK back
    (k, shlAssign r k)

/-- The correction loop `while (*this < 0) { --*q_it; *this += rhs; }`,
fuel-bounded (`--` on a `digit_type` wraps modulo 2^32).  Returns the working
value and final quotient digit. -/
def divFix : Nat → BigInt → BigInt → Nat → BigInt × Nat
  | 0, w, _r, qd => (w, qd)
  | f + 1, w, r, qd =>
    if ltB w zeroB then divFix f (addAssign w r) r ((qd + DB - 1) % DB)
    else (w, qd)

/-- Fuel for one correction loop; the loop body strictly increases the
working value whenever `operator+=` is value-correct, so 2^32 + 2 iterations
cover every run that terminates at all. -/
def divLoopFuel : Nat := DB + 2

/-- Main quotient loop of `div_rem`: the counter `p + 1` handles quotient
position `p` (highest remaining first); stops early when the working
magnitude has fewer than two limbs.  Each step erases the aligned divisor's
low limb, estimates `t` from the top two dividend limbs, clamps to
`DIGIT_BASE - 1`, subtracts `q̂ · rhs` (as `*q_it * rhs`, a fresh
`big_integer` product), and runs the correction loop. -/
def divLoop : Nat → BigInt → BigInt → List Nat → BigInt × BigInt × List Nat
  | 0, w, r, q => (w, r, q)
  | p + 1, w, r, q =>
    if w.data.length < 2 then (w, r, q)
    else
      let r2 : BigInt := { r with data := r.data.tail }
      let n := w.data.length
      let t := (w.data.getD (n - 1) 0 * DB + w.data.getD (n - 2) 0) / r2.data.getLastD 0
      let qd := min t (DB - 1)
      let w2 := subAssign w (opMul (bigOfULL qd false) r2)
      let p2 := divFix divLoopFuel w2 r2 qd
      divLoop p p2.1 r2 (q.set p p2.2)

/-- `big_integer::div_rem(rhs)`: `DivisionByZero` (a thrown
`std::invalid_argument`) is the `error` case; otherwise returns
`(quotient, remainder)` — the final `*this` and the returned `rem`. -/
def divRem (a rhs0 : BigInt) : Except Unit (BigInt × BigInt) :=
  if isZero rhs0 then Except.error ()
  else if isZero a || a.data.length < rhs0.data.length then
    Except.ok (zeroB, a)
  else
    let thisSign := isNeg a
    let resultSign := xor (isNeg a) (isNeg rhs0)
    let a1 : BigInt := { a with negative := false }
    let r1 : BigInt := { rhs0 with negative := false }
    let kr := normalizeB r1
    let a2 := shlAssign a1 kr.1
    let m := a2.data.length - kr.2.data.length
    let r3 : BigInt := { kr.2 with data := List.replicate m 0 ++ kr.2.data }
    let start :=
      if geB a2 r3 then ((List.replicate (m + 1) 0).set m 1, absSubtract a2 r3 a2 SZMAX)
      else (List.replicate (m + 1) 0, a2)
    let fin := divLoop m start.2 r3 start.1
    Except.ok
      ({ data := trimMag fin.2.2, negative := resultSign },
       { data := (absDivIntMag (trimMag fin.1.data) (2 ^ kr.1)).1, negative := thisSign })

/-- `operator/=` as a transformer of the operand pair together with the
thrown-exception flag: the throw is `div_rem`'s first action — before any
write to `*this` — and the divisor is read through a const reference (and
copied), so a throwing run leaves both operands at their entry states. -/
def divAssignRun (a b : BigInt) : (BigInt × BigInt) × Bool :=
  match divRem a b with
  | Except.error _ => ((a, b), true)
  | Except.ok qr => ((qr.1, b), false)

/-- `operator%=` as the same kind of transformer (`div_rem(rhs).swap(*this)`
runs only when no exception was thrown). -/
def modAssignRun (a b : BigInt) : (BigInt × BigInt) × Bool :=
  match divRem a b with
  | Except.error _ => ((a, b), true)
  | Except.ok qr => ((qr.2, b), false)

/-! ## Decimal I/O (4.G) -/

/-- `std::from_chars` digit test (ASCII `'0'..'9'`). -/
def isDigitCh (c : Char) : Bool := 48 ≤ c.toNat && c.toNat ≤ 57

/-- Value of an all-digit run, most significant first (what `std::from_chars`
returns for a fully consumed chunk). -/
def numBE (cs : List Char) : Nat := cs.foldl (fun acc c => acc * 10 + (c.toNat - 48)) 0

/-- The chunk loop of the string constructor: consume up to
`DIGITS_10 = 9` characters; a chunk `from_chars` does not fully consume (any
non-digit present) throws; otherwise
`abs_mul_int(10^len)` then `abs_add_int(value)`. -/
def parseLoopF : Nat → List Nat → List Char → Except Unit (List Nat)
  | _, mag, [] => Except.ok mag
  | 0, mag, _ :: _ => Except.ok mag
  | f + 1, mag, c :: cs =>
    let chunk := (c :: cs).take 9
    if chunk.all isDigitCh then
      parseLoopF f (absAddIntMag (absMulIntMag mag (10 ^ chunk.length)) (numBE chunk)) (cs.drop 8)
    else Except.error ()

/-- The chunk loop with its fuel instantiated: every iteration consumes at
least one character, so `s.length` steps always reach the end of the
string. -/
def parseLoop (mag : List Nat) (s : List Char) : Except Unit (List Nat) :=
  parseLoopF s.length mag s

/-- `big_integer::big_integer(const std::string&)`: optional leading `'-'`
(which calls `negate()` on the default-constructed zero), at least one
remaining character required, then the chunk loop and a final `trim()`;
`ParseError` (a thrown `std::invalid_argument`) is the `error` case. -/
def fromChars (s : List Char) : Except Unit BigInt :=
  let neg := s.head? == some '-'
  let rest := if neg then s.tail else s
  if rest.isEmpty then Except.error ()
  else Except.map (fun mag => { data := trimMag mag, negative := neg }) (parseLoop [] rest)

/-- The inner digit loop of `to_string`: push `rem % 10 + '0'` while the
remainder is non-zero (least significant digit first). -/
def pushDigitsF : Nat → Nat → List Char
  | 0, _ => []
  | f + 1, r => if r = 0 then [] else Char.ofNat (r % 10 + 48) :: pushDigitsF f (r / 10)

/-- The digit loop with its fuel instantiated (each step divides the
remainder by 10, so `r` steps always empty it). -/
def pushDigits (r : Nat) : List Char := pushDigitsF r r

/-- The chunk loop of `to_string`, fuel-bounded: divide the working copy by
`DIGIT_MOD10 = 10^9`, emit the remainder's digits, and left-pad the chunk to
width 9 (append on the little-endian accumulator) unless the copy is now
zero.  For bounded magnitudes `valNat mag + mag.length + 1` fuel always
completes the loop (proved below). -/
def tsLoopF : Nat → List Nat → List Char
  | 0, _ => []
  | f + 1, mag =>
    if mag.isEmpty then []
    else
      let p := absDivIntMag mag 1000000000
      let ds := pushDigits p.2
      ds ++ (if p.1.isEmpty then [] else List.replicate (9 - ds.length) (Char.ofNat 48))
         ++ tsLoopF f p.1

/-- The `to_string` main loop on a magnitude. -/
def tsLoop (mag : List Nat) : List Char := tsLoopF (valNat mag + mag.length + 1) mag

/-- `to_string(a)`: `"0"` for zero; otherwise the chunk loop's accumulator,
a `'-'` pushed at the end when negative, and a final reverse. -/
def toStringB (a : BigInt) : List Char :=
  if isZero a then [Char.ofNat 48]
  else
    let res := tsLoop a.data
    (if isNeg a then res ++ [Char.ofNat 45] else res).reverse

/-- Value of a little-endian digit run (index 0 = least significant decimal
digit). -/
def numLE (cs : List Char) : Nat := cs.foldr (fun c acc => (c.toNat - 48) + 10 * acc) 0

end BI

namespace BI

/-! ## Basic facts about magnitudes -/

theorem DB_pos : 0 < DB := by norm_num [DB]

theorem DB_gt_one : 1 < DB := by norm_num [DB]

@[simp] theorem valNat_nil : valNat [] = 0 := rfl

@[simp] theorem valNat_cons (d : Nat) (l : List Nat) :
    valNat (d :: l) = d + DB * valNat l := rfl

theorem valNat_append (l t : List Nat) :
    valNat (l ++ t) = valNat l + DB ^ l.length * valNat t := by
  induction l with
  | nil => simp
  | cons d l ih => simp [ih, pow_succ]; ring

theorem valNat_eq_zero_of_all_zero {l : List Nat} (h : ∀ x ∈ l, x = 0) :
    valNat l = 0 := by
  induction l with
  | nil => rfl
  | cons d l ih =>
    have hd := h d (List.mem_cons_self ..)
    have := ih fun x hx => h x (List.mem_cons_of_mem _ hx)
    simp [hd, this]

theorem head_dropWhile_false {α} (p : α → Bool) :
    ∀ (l : List α) (a : α) (t : List α), l.dropWhile p = a :: t → p a = false := by
  intro l
  induction l with
  | nil => intro a t h; simp [List.dropWhile] at h
  | cons b l ih =>
    intro a t h
    by_cases hb : p b
    · rw [List.dropWhile_cons_of_pos hb] at h; exact ih a t h
    · rw [List.dropWhile_cons_of_neg hb] at h
      cases h; simpa using hb

theorem trimMag_decomp (l : List Nat) :
    l = trimMag l ++ (l.reverse.takeWhile (· == 0)).reverse ∧
      (∀ x ∈ (l.reverse.takeWhile (· == 0)).reverse, x = 0) := by
  constructor
  · have h1 : (l.reverse.takeWhile (· == 0) ++ l.reverse.dropWhile (· == 0)).reverse = l := by
      rw [List.takeWhile_append_dropWhile]; simp
    rw [List.reverse_append] at h1
    exact h1.symm
  · intro x hx
    rw [List.mem_reverse] at hx
    have := List.mem_takeWhile_imp hx
    simpa using this

theorem valNat_trimMag (l : List Nat) : valNat (trimMag l) = valNat l := by
  obtain ⟨hdec, hz⟩ := trimMag_decomp l
  conv_rhs => rw [hdec]
  rw [valNat_append, valNat_eq_zero_of_all_zero hz]
  simp

theorem noTopZero_trimMag (l : List Nat) : NoTopZero (trimMag l) := by
  unfold NoTopZero trimMag
  rw [List.getLast?_reverse]
  cases h : l.reverse.dropWhile (· == 0) with
  | nil => simp
  | cons a t =>
    have := head_dropWhile_false (· == 0) l.reverse a t h
    simp only [List.head?_cons, ne_eq, Option.some.injEq]
    simpa using this

theorem mem_trimMag {l : List Nat} {x : Nat} (h : x ∈ trimMag l) : x ∈ l := by
  unfold trimMag at h
  rw [List.mem_reverse] at h
  have := (List.dropWhile_sublist (l := l.reverse) (· == 0)).mem h
  rwa [List.mem_reverse] at this

theorem boundedMag_trimMag {l : List Nat} (h : BoundedMag l) :
    BoundedMag (trimMag l) := fun d hd => h d (mem_trimMag hd)

theorem trimMag_eq_nil {l : List Nat} (h : ∀ x ∈ l, x = 0) : trimMag l = [] := by
  unfold trimMag
  have : l.reverse.dropWhile (· == 0) = [] := by
    rw [List.dropWhile_eq_nil_iff]
    intro x hx
    rw [List.mem_reverse] at hx
    simp [h x hx]
  simp [this]

theorem noTopZero_cons {a : Nat} {l : List Nat} (hne : l ≠ []) (h : NoTopZero (a :: l)) :
    NoTopZero l := by
  unfold NoTopZero at *
  cases hL : l.getLast? with
  | none => exact absurd (List.getLast?_eq_none_iff.mp hL) hne
  | some x =>
    rw [List.getLast?_cons, hL] at h
    simpa using h

theorem valNat_pos {l : List Nat} (h : NoTopZero l) (hne : l ≠ []) : 0 < valNat l := by
  induction l with
  | nil => exact absurd rfl hne
  | cons a t ih =>
    rcases eq_or_ne t [] with rfl | ht
    · unfold NoTopZero at h
      simp only [List.getLast?_singleton, ne_eq, Option.some.injEq] at h
      simpa using Nat.pos_of_ne_zero h
    · have := ih (noTopZero_cons ht h) ht
      have hDB := DB_pos
      simp only [valNat_cons]
      positivity

theorem valNat_inj : ∀ {x y : List Nat}, BoundedMag x → BoundedMag y →
    NoTopZero x → NoTopZero y → valNat x = valNat y → x = y := by
  intro x
  induction x with
  | nil =>
    intro y _ hby _ hny h
    cases y with
    | nil => rfl
    | cons b ys =>
      exact absurd h.symm (Nat.ne_of_gt (valNat_pos hny (by simp)))
  | cons a xs ih =>
    intro y hbx hby hnx hny h
    cases y with
    | nil => exact absurd h (Nat.ne_of_gt (valNat_pos hnx (by simp)))
    | cons b ys =>
      have ha : a < DB := hbx a (List.mem_cons_self ..)
      have hb : b < DB := hby b (List.mem_cons_self ..)
      have hmod : a = b := by
        have := congrArg (· % DB) h
        simpa [Nat.add_mul_mod_self_left, Nat.mod_eq_of_lt ha, Nat.mod_eq_of_lt hb] using this
      have hdiv : valNat xs = valNat ys := by
        have := congrArg (· / DB) h
        simp only [valNat_cons] at this
        rw [Nat.add_mul_div_left _ _ DB_pos, Nat.add_mul_div_left _ _ DB_pos,
          Nat.div_eq_of_lt ha, Nat.div_eq_of_lt hb] at this
        simpa using this
      have htails : xs = ys := by
        rcases eq_or_ne xs [] with rfl | hxs
        · rcases eq_or_ne ys [] with rfl | hys
          · rfl
          · have := valNat_pos (noTopZero_cons hys hny) hys
            simp [← hdiv] at this
        · rcases eq_or_ne ys [] with rfl | hys
          · have := valNat_pos (noTopZero_cons hxs hnx) hxs
            simp [hdiv] at this
          · exact ih (fun d hd => hbx d (List.mem_cons_of_mem _ hd))
              (fun d hd => hby d (List.mem_cons_of_mem _ hd))
              (noTopZero_cons hxs hnx) (noTopZero_cons hys hny) hdiv
      rw [hmod, htails]

theorem isNeg_eq_of_value {x y : BigInt} (hx : Wf x) (hy : Wf y)
    (h : value x = value y) : isNeg x = isNeg y := by
  have px : isNeg x = true → 0 < valNat x.data := by
    intro hneg
    refine valNat_pos hx.2 ?_
    unfold isNeg isZero at hneg
    simpa [List.isEmpty_iff] using (Bool.and_eq_true ..|>.mp hneg).2
  have py : isNeg y = true → 0 < valNat y.data := by
    intro hneg
    refine valNat_pos hy.2 ?_
    unfold isNeg isZero at hneg
    simpa [List.isEmpty_iff] using (Bool.and_eq_true ..|>.mp hneg).2
  cases hnx : isNeg x <;> cases hny : isNeg y <;> try rfl
  · have := py hny
    unfold value at h
    rw [hnx, hny] at h
    simp at h
    omega
  · have := px hnx
    unfold value at h
    rw [hnx, hny] at h
    simp at h
    omega

theorem eqB_of_value {x y : BigInt} (hx : Wf x) (hy : Wf y)
    (h : value x = value y) : eqB x y = true := by
  have hneg := isNeg_eq_of_value hx hy h
  have hdata : x.data = y.data := by
    have hval : valNat x.data = valNat y.data := by
      unfold value at h
      rw [hneg] at h
      cases hny : isNeg y <;> rw [hny] at h <;> simp at h <;> omega
    exact valNat_inj hx.1 hy.1 hx.2 hy.2 hval
  simp [eqB, hneg, hdata]

end BI

namespace BI

/-! ## `abs_add` -/

theorem noTopZero_nil : NoTopZero [] := by simp [NoTopZero]

theorem noTopZero_tail {a : Nat} {l : List Nat} (h : NoTopZero (a :: l)) : NoTopZero l := by
  rcases eq_or_ne l [] with rfl | hne
  · exact noTopZero_nil
  · exact noTopZero_cons hne h

theorem absAddGo_val (as bs : List Nat) (c : Nat) : BoundedMag as → BoundedMag bs →
    c ≤ 1 → valNat (absAddGo as bs c) = valNat as + valNat bs + c := by
  induction as, bs, c using absAddGo.induct with
  | case1 a as b bs c ih =>
    intro hba hbb hc
    have ha : a < DB := hba a (List.mem_cons_self ..)
    have hb : b < DB := hbb b (List.mem_cons_self ..)
    have hq : (a + b + c) / DB ≤ 1 := by simp only [DB] at ha hb ⊢; omega
    rw [absAddGo, valNat_cons,
      ih (fun d hd => hba d (List.mem_cons_of_mem _ hd))
         (fun d hd => hbb d (List.mem_cons_of_mem _ hd)) hq]
    simp only [valNat_cons, DB]
    omega
  | case2 a as c ih =>
    intro hba _ hc
    have ha : a < DB := hba a (List.mem_cons_self ..)
    have hq : (a + c) / DB ≤ 1 := by simp only [DB] at ha ⊢; omega
    rw [absAddGo, valNat_cons,
      ih (fun d hd => hba d (List.mem_cons_of_mem _ hd)) (fun d hd => by cases hd) hq]
    simp only [valNat_cons, valNat_nil, DB]
    omega
  | case3 b bs c ih =>
    intro _ hbb hc
    have hb : b < DB := hbb b (List.mem_cons_self ..)
    have hq : (b + c) / DB ≤ 1 := by simp only [DB] at hb ⊢; omega
    rw [absAddGo, valNat_cons,
      ih (fun d hd => by cases hd) (fun d hd => hbb d (List.mem_cons_of_mem _ hd)) hq]
    simp only [valNat_cons, valNat_nil, DB]
    omega
  | case4 => intro _ _ _; simp [absAddGo]
  | case5 c hcne =>
    intro _ _ hc
    have : c = 1 := by omega
    subst this
    simp [absAddGo, valNat_cons, DB]

theorem absAddGo_bounded (as bs : List Nat) (c : Nat) : BoundedMag (absAddGo as bs c) := by
  induction as, bs, c using absAddGo.induct with
  | case1 a as b bs c ih =>
    rw [absAddGo]
    intro d hd
    rcases List.mem_cons.mp hd with rfl | hd
    · exact Nat.mod_lt _ DB_pos
    · exact ih d hd
  | case2 a as c ih =>
    rw [absAddGo]
    intro d hd
    rcases List.mem_cons.mp hd with rfl | hd
    · exact Nat.mod_lt _ DB_pos
    · exact ih d hd
  | case3 b bs c ih =>
    rw [absAddGo]
    intro d hd
    rcases List.mem_cons.mp hd with rfl | hd
    · exact Nat.mod_lt _ DB_pos
    · exact ih d hd
  | case4 => intro d hd; simp [absAddGo] at hd
  | case5 c hcne =>
    intro d hd
    simp [absAddGo, hcne] at hd
    subst hd
    exact Nat.mod_lt _ DB_pos

theorem absAddGo_eq_nil_iff (as bs : List Nat) (c : Nat) :
    absAddGo as bs c = [] ↔ as = [] ∧ bs = [] ∧ c = 0 := by
  cases as <;> cases bs <;> simp [absAddGo]

theorem absAddGo_noTop (as bs : List Nat) (c : Nat) : BoundedMag as → BoundedMag bs →
    c ≤ 1 → NoTopZero as → NoTopZero bs → NoTopZero (absAddGo as bs c) := by
  induction as, bs, c using absAddGo.induct with
  | case1 a as b bs c ih =>
    intro hba hbb hc hna hnb
    have ha : a < DB := hba a (List.mem_cons_self ..)
    have hb : b < DB := hbb b (List.mem_cons_self ..)
    have hq : (a + b + c) / DB ≤ 1 := by simp only [DB] at ha hb ⊢; omega
    rw [absAddGo]
    cases hrec : absAddGo as bs ((a + b + c) / DB) with
    | nil =>
      obtain ⟨h1, h2, h3⟩ := (absAddGo_eq_nil_iff ..).mp hrec
      subst h1; subst h2
      have hane : a ≠ 0 := by simpa [NoTopZero] using hna
      have hlt : a + b + c < DB := by simp only [DB] at ha hb h3 ⊢; omega
      simp [NoTopZero, Nat.mod_eq_of_lt hlt]
      omega
    | cons x t =>
      have := ih (fun d hd => hba d (List.mem_cons_of_mem _ hd))
        (fun d hd => hbb d (List.mem_cons_of_mem _ hd)) hq
        (noTopZero_tail hna) (noTopZero_tail hnb)
      rw [hrec] at this
      simpa [NoTopZero, List.getLast?_cons_cons] using this
  | case2 a as c ih =>
    intro hba _ hc hna _
    have ha : a < DB := hba a (List.mem_cons_self ..)
    have hq : (a + c) / DB ≤ 1 := by simp only [DB] at ha ⊢; omega
    rw [absAddGo]
    cases hrec : absAddGo as [] ((a + c) / DB) with
    | nil =>
      obtain ⟨h1, _, h3⟩ := (absAddGo_eq_nil_iff ..).mp hrec
      subst h1
      have hane : a ≠ 0 := by simpa [NoTopZero] using hna
      have hlt : a + c < DB := by simp only [DB] at ha h3 ⊢; omega
      simp [NoTopZero, Nat.mod_eq_of_lt hlt]
      omega
    | cons x t =>
      have := ih (fun d hd => hba d (List.mem_cons_of_mem _ hd)) (fun d hd => by cases hd) hq
        (noTopZero_tail hna) noTopZero_nil
      rw [hrec] at this
      simpa [NoTopZero, List.getLast?_cons_cons] using this
  | case3 b bs c ih =>
    intro _ hbb hc _ hnb
    have hb : b < DB := hbb b (List.mem_cons_self ..)
    have hq : (b + c) / DB ≤ 1 := by simp only [DB] at hb ⊢; omega
    rw [absAddGo]
    cases hrec : absAddGo [] bs ((b + c) / DB) with
    | nil =>
      obtain ⟨_, h2, h3⟩ := (absAddGo_eq_nil_iff ..).mp hrec
      subst h2
      have hbne : b ≠ 0 := by simpa [NoTopZero] using hnb
      have hlt : b + c < DB := by simp only [DB] at hb h3 ⊢; omega
      simp [NoTopZero, Nat.mod_eq_of_lt hlt]
      omega
    | cons x t =>
      have := ih (fun d hd => by cases hd) (fun d hd => hbb d (List.mem_cons_of_mem _ hd)) hq
        noTopZero_nil (noTopZero_tail hnb)
      rw [hrec] at this
      simpa [NoTopZero, List.getLast?_cons_cons] using this
  | case4 => intro _ _ _ _ _; simp [absAddGo, noTopZero_nil]
  | case5 c hcne =>
    intro _ _ hc _ _
    have : c = 1 := by omega
    subst this
    simp [absAddGo, NoTopZero, DB]

theorem absAddMag_val (x y : List Nat) (hx : BoundedMag x) (hy : BoundedMag y) :
    valNat (absAddMag x y) = valNat x + valNat y := by
  unfold absAddMag
  by_cases h : x.length < y.length
  · rw [if_pos h, absAddGo_val y x 0 hy hx (by omega)]; omega
  · rw [if_neg h, absAddGo_val x y 0 hx hy (by omega)]; omega

theorem absAddMag_bounded (x y : List Nat) : BoundedMag (absAddMag x y) := by
  unfold absAddMag
  by_cases h : x.length < y.length
  · rw [if_pos h]; exact absAddGo_bounded y x 0
  · rw [if_neg h]; exact absAddGo_bounded x y 0

theorem absAddMag_noTop (x y : List Nat) (hx : BoundedMag x) (hy : BoundedMag y)
    (hnx : NoTopZero x) (hny : NoTopZero y) : NoTopZero (absAddMag x y) := by
  unfold absAddMag
  by_cases h : x.length < y.length
  · rw [if_pos h]; exact absAddGo_noTop _ _ _ hy hx (by omega) hny hnx
  · rw [if_neg h]; exact absAddGo_noTop _ _ _ hx hy (by omega) hnx hny

end BI

namespace BI

/-! ## Claims C9, C10: aliased compound assignment -/

/-- The sign mask is immaterial for the denoted value: an empty magnitude is 0
under either sign. -/
theorem value_eq_cond (x : BigInt) :
    value x = if x.negative = true then -(valNat x.data : Int) else (valNat x.data : Int) := by
  unfold value isNeg isZero
  cases hn : x.negative
  · simp
  · cases hje : x.data.isEmpty
    · simp
    · have hnil : x.data = [] := by simpa using hje
      simp [hnil]

/-- C9: for every BigInt `a` (with 32-bit limbs), the self-aliased compound
subtraction `a -= a` leaves `a` holding `2·a`, not zero: `operator-=` negates
`*this` in place — negating the aliased right-hand side with it — so
`operator+=` sees equal signs and `abs_add` doubles the magnitude. -/
theorem claim_C9 (a : BigInt) (h : BoundedMag a.data) :
    value (subAssignSelf a) = 2 * value a := by
  have hval : valNat (absAddMag a.data a.data) = 2 * valNat a.data :=
    by rw [absAddMag_val _ _ h h]; omega
  unfold subAssignSelf addAssign
  rw [if_pos (by simp)]
  rw [value_eq_cond, value_eq_cond]
  simp only [negate, Bool.not_not, hval]
  cases hn : a.negative
  · simp
  · simp

/-- The self-aliased `a -= a` at a concrete input: `Bounded` hypothesis
discharged at `a = -6`. -/
theorem claim_C9_witness :
    value (subAssignSelf (ofIntB (-6))) = 2 * value (ofIntB (-6)) :=
  claim_C9 (ofIntB (-6)) (by unfold BoundedMag; decide)

theorem getD_set (l : List Nat) (k t x : Nat) :
    (l.set k x).getD t 0 = if k = t ∧ k < l.length then x else l.getD t 0 := by
  rw [List.getD_eq_getElem?_getD, List.getD_eq_getElem?_getD, List.getElem?_set]
  by_cases h1 : k = t
  · subst h1
    by_cases h2 : k < l.length
    · simp [h2]
    · simp [h2, List.getElem?_eq_none (show l.length ≤ k by omega)]
  · simp [h1]

theorem getD_zero_of_le {l : List Nat} {t : Nat} (h : l.length ≤ t) : l.getD t 0 = 0 := by
  rw [List.getD_eq_getElem?_getD, List.getElem?_eq_none (by omega)]
  rfl

theorem absMulSelfInner_zero :
    ∀ (cnt j : Nat) (data : List Nat) (dataI i rhsSize : Nat),
      (∀ t, t < i + rhsSize → data.getD t 0 = 0) → j + cnt ≤ rhsSize →
      (absMulSelfInner dataI i cnt j 0 data).2 = 0 ∧
      (∀ t, t < i + rhsSize → (absMulSelfInner dataI i cnt j 0 data).1.getD t 0 = 0) ∧
      (absMulSelfInner dataI i cnt j 0 data).1.length = data.length := by
  intro cnt
  induction cnt with
  | zero => intro j data dataI i rhsSize hz _; exact ⟨rfl, hz, rfl⟩
  | succ n ih =>
    intro j data dataI i rhsSize hz hle
    have hread1 : data.getD j 0 = 0 := hz j (by omega)
    have hread2 : data.getD (i + j) 0 = 0 := hz (i + j) (by omega)
    rw [absMulSelfInner]
    simp only [hread1, hread2, Nat.mul_zero, Nat.add_zero, Nat.zero_div, Nat.zero_mod]
    have hz2 : ∀ t, t < i + rhsSize → (data.set (i + j) 0).getD t 0 = 0 := by
      intro t ht
      rw [getD_set]
      by_cases hc : i + j = t ∧ i + j < data.length
      · rw [if_pos hc]
      · rw [if_neg hc]; exact hz t ht
    have := ih (j + 1) (data.set (i + j) 0) dataI i rhsSize hz2 (by omega)
    refine ⟨this.1, this.2.1, ?_⟩
    rw [this.2.2, List.length_set]

theorem absMulSelfOuter_zero :
    ∀ (cnt i : Nat) (data : List Nat) (rhsSize : Nat),
      (∀ t, t < i + rhsSize → data.getD t 0 = 0) →
      (∀ t, t < cnt + i + rhsSize → (absMulSelfOuter rhsSize cnt i data).getD t 0 = 0) ∧
      (absMulSelfOuter rhsSize cnt i data).length = data.length := by
  intro cnt
  induction cnt with
  | zero => intro i data rhsSize hz; exact ⟨fun t ht => hz t (by omega), rfl⟩
  | succ n ih =>
    intro i data rhsSize hz
    have hin := absMulSelfInner_zero rhsSize 0 data (data.getD (i + rhsSize) 0) i rhsSize hz
      (by omega)
    rw [absMulSelfOuter]
    set p := absMulSelfInner (data.getD (i + rhsSize) 0) i rhsSize 0 0 data with hp
    have hz2 : ∀ t, t < (i + 1) + rhsSize → (p.1.set (i + rhsSize) p.2).getD t 0 = 0 := by
      intro t ht
      rw [hin.1, getD_set]
      by_cases hc : i + rhsSize = t ∧ i + rhsSize < p.1.length
      · rw [if_pos hc]
      · rw [if_neg hc]
        rcases Nat.lt_or_ge t (i + rhsSize) with h1 | h1
        · exact hin.2.1 t h1
        · have ht2 : t = i + rhsSize := by omega
          subst ht2
          refine getD_zero_of_le ?_
          by_contra hlen
          exact hc ⟨rfl, by omega⟩
    have := ih (i + 1) (p.1.set (i + rhsSize) p.2) rhsSize hz2
    refine ⟨fun t ht => this.1 t (by omega), ?_⟩
    rw [this.2, List.length_set, hin.2.2]

theorem getD_data0_zero (l : List Nat) (t : Nat) (ht : t < l.length) :
    (List.replicate l.length 0 ++ l).getD t 0 = 0 := by
  rw [List.getD_eq_getElem?_getD, List.getElem?_append, if_pos (by simpa using ht),
    List.getElem?_replicate, if_pos ht]
  rfl

theorem absMulSelfMag_nil (l : List Nat) : absMulSelfMag l = [] := by
  unfold absMulSelfMag
  apply trimMag_eq_nil
  have h0 : ∀ t, t < 0 + l.length →
      (List.replicate l.length 0 ++ l).getD t 0 = 0 := by
    intro t ht
    exact getD_data0_zero l t (by omega)
  obtain ⟨hall, hlen⟩ :=
    absMulSelfOuter_zero l.length 0 (List.replicate l.length 0 ++ l) l.length h0
  intro x hx
  obtain ⟨i, hi, hix⟩ := List.getElem_of_mem hx
  have hzero := hall i (by
    rw [hlen] at hi
    simp only [List.length_append, List.length_replicate] at hi
    omega)
  rw [List.getD_eq_getElem?_getD, List.getElem?_eq_getElem hi, hix] at hzero
  simpa using hzero

/-- C10: for every BigInt `a`, the self-aliased compound multiplication
`a *= a` leaves `a` equal to zero, not `a²`: the in-place schoolbook multiply
prepends `rhs.size()` zero limbs to the shared buffer and then reads the
right-hand operand's low limbs as those zeros, so every written limb is zero
and the final `trim()` empties the magnitude. -/
theorem claim_C10 (a : BigInt) :
    value (mulAssignSelf a) = 0 ∧ eqB (mulAssignSelf a) zeroB = true ∧
    (value a ≠ 0 → value (mulAssignSelf a) ≠ value a * value a) := by
  have hd : (mulAssignSelf a).data = [] := absMulSelfMag_nil a.data
  have h1 : value (mulAssignSelf a) = 0 := by
    unfold value isNeg isZero
    simp [hd]
  refine ⟨h1, ?_, ?_⟩
  · simp [eqB, isNeg, isZero, hd, zeroB]
  · intro hne
    rw [h1]
    exact fun hc => hne (by nlinarith [sq_nonneg (value a), hc.symm])

/-- `a *= a` at the concrete input `a = 3`: the product is 0, not 9. -/
theorem claim_C10_witness :
    value (mulAssignSelf (ofIntB 3)) = 0 ∧
    value (mulAssignSelf (ofIntB 3)) ≠ value (ofIntB 3) * value (ofIntB 3) :=
  ⟨(claim_C10 (ofIntB 3)).1, (claim_C10 (ofIntB 3)).2.2 (by decide)⟩

end BI

namespace BI

/-! ## Claims C1, C2, C8: concrete divergences; claim C3: division by zero -/

/-- C1: the signed division contract fails on the code.  At `a = 2^32 + 1`,
`b = 1` the quotient loop's `_data.size() >= 2` guard exits before the last
quotient digit is produced, leaving `a / b = 2^32` (not `2^32 + 1`) and
`a % b = 1 = |b|`, which violates `|a % b| < |b|` (and on this input the
remainder equals the divisor). -/
theorem claim_C1 :
    (divRem (ofIntB 4294967297) (ofIntB 1)).map (fun p => (value p.1, value p.2)) =
      Except.ok ((4294967296 : Int), (1 : Int)) ∧
    ¬((1 : Int).natAbs < ((1 : Int)).natAbs) := by
  constructor
  · rfl
  · omega

/-- C2: `>>` is not an arithmetic floor shift on the code.  `-8 >> 2` yields
`-3` (the magnitude shift gives 2 and `abs_add_int(1)` runs even though no
bits were dropped), not the claimed `-2`; and `-1 >> 1` yields `0` (the
magnitude shift empties `_data`, after which `is_negative()` is false and the
`+1` correction is skipped), not the claimed `-1`. -/
theorem claim_C2 :
    value (shrAssign (ofIntB (-8)) 2) = -3 ∧
    value (shrAssign (ofIntB (-1)) 1) = 0 := by decide

/-- C8: the result sign of a bitwise operation does not always equal the
functor applied to the operands' sign bits.  At `1 ^ (-4294967295)` the
output-side two's-complement conversion's final carry is discarded, the
magnitude trims to empty, and the observable sign is 0 even though
`xor(sign bits) = 1` (the true xor is `-2^32`).  The claim's concrete AND
examples do hold. -/
theorem claim_C8 :
    value (opXor (ofIntB 1) (ofIntB (-4294967295))) = 0 ∧
    isNeg (opXor (ofIntB 1) (ofIntB (-4294967295))) = false ∧
    xor (isNeg (ofIntB 1)) (isNeg (ofIntB (-4294967295))) = true ∧
    value (opAnd (ofIntB 4294967295) (ofIntB 4294967295)) = 4294967295 ∧
    value (opAnd (ofIntB 4294967295) (ofIntB (-1))) = 4294967295 := by decide

/-- C3: `/` and `%` (via `div_rem`) fail exactly when the divisor is zero, and
the throwing path leaves both operands at their entry states (the throw
precedes every write to `*this`, and the divisor is read through a const
reference). -/
theorem claim_C3 (a b : BigInt) :
    ((divAssignRun a b).2 = isZero b ∧ (modAssignRun a b).2 = isZero b) ∧
    (isZero b = true → divAssignRun a b = ((a, b), true) ∧
      modAssignRun a b = ((a, b), true)) := by
  cases hz : isZero b
  · have hok : ∃ qr, divRem a b = Except.ok qr := by
      unfold divRem
      rw [hz]
      simp only [Bool.false_eq_true, if_false]
      split
      · exact ⟨_, rfl⟩
      · exact ⟨_, rfl⟩
    obtain ⟨qr, hqr⟩ := hok
    refine ⟨⟨?_, ?_⟩, ?_⟩
    · simp [divAssignRun, hqr]
    · simp [modAssignRun, hqr]
    · intro hc; cases hc
  · have herr : divRem a b = Except.error () := by
      unfold divRem
      rw [hz]
      simp
    refine ⟨⟨?_, ?_⟩, ?_⟩
    · simp [divAssignRun, herr]
    · simp [modAssignRun, herr]
    · intro _
      constructor
      · simp [divAssignRun, herr]
      · simp [modAssignRun, herr]

/-- Division by zero at a concrete input: `5 /= 0` and `5 %= 0` throw and the
operands are untouched. -/
theorem claim_C3_witness :
    (divAssignRun (ofIntB 5) zeroB).2 = isZero zeroB ∧
    divAssignRun (ofIntB 5) zeroB = ((ofIntB 5, zeroB), true) ∧
    modAssignRun (ofIntB 5) zeroB = ((ofIntB 5, zeroB), true) :=
  ⟨(claim_C3 (ofIntB 5) zeroB).1.1,
   ((claim_C3 (ofIntB 5) zeroB).2 (by decide)).1,
   ((claim_C3 (ofIntB 5) zeroB).2 (by decide)).2⟩

end BI

namespace BI

/-! ## Scalar loops: `abs_add_int`, `abs_sub_int` -/

theorem absAddIntGo_val (l : List Nat) : ∀ s, BoundedMag l → s < DB →
    valNat (absAddIntGo l s) = valNat l + s := by
  induction l with
  | nil =>
    intro s _ hs
    rcases eq_or_ne s 0 with rfl | hne
    · simp [absAddIntGo]
    · simp [absAddIntGo, hne, Nat.mod_eq_of_lt hs]
  | cons d ds ih =>
    intro s hb hs
    have hd : d < DB := hb d (List.mem_cons_self ..)
    have hq : (d + s) / DB < DB := by simp only [DB] at hd hs ⊢; omega
    rw [absAddIntGo, valNat_cons,
      ih _ (fun x hx => hb x (List.mem_cons_of_mem _ hx)) hq, valNat_cons]
    simp only [DB] at hd hs ⊢
    omega

theorem absAddIntGo_bounded (l : List Nat) : ∀ s, BoundedMag (absAddIntGo l s) := by
  induction l with
  | nil =>
    intro s d hd
    rcases eq_or_ne s 0 with rfl | hne
    · simp [absAddIntGo] at hd
    · simp [absAddIntGo, hne] at hd
      subst hd
      exact Nat.mod_lt _ DB_pos
  | cons x ds ih =>
    intro s d hd
    rw [absAddIntGo] at hd
    rcases List.mem_cons.mp hd with rfl | hd
    · exact Nat.mod_lt _ DB_pos
    · exact ih _ d hd

theorem absAddIntGo_eq_nil_iff (l : List Nat) (s : Nat) :
    absAddIntGo l s = [] ↔ l = [] ∧ s = 0 := by
  cases l with
  | nil =>
    rcases eq_or_ne s 0 with rfl | hne
    · simp [absAddIntGo]
    · simp [absAddIntGo, hne]
  | cons d ds => simp [absAddIntGo]

theorem absAddIntGo_noTop (l : List Nat) : ∀ s, BoundedMag l → NoTopZero l → s < DB →
    NoTopZero (absAddIntGo l s) := by
  induction l with
  | nil =>
    intro s _ _ hs
    rcases eq_or_ne s 0 with rfl | hne
    · simp [absAddIntGo, noTopZero_nil]
    · rw [show absAddIntGo [] s = [s % DB] from by simp [absAddIntGo, hne]]
      simp only [NoTopZero, List.getLast?_singleton, ne_eq, Option.some.injEq,
        Nat.mod_eq_of_lt hs]
      exact hne
  | cons d ds ih =>
    intro s hb hn hs
    have hd : d < DB := hb d (List.mem_cons_self ..)
    have hq : (d + s) / DB < DB := by simp only [DB] at hd hs ⊢; omega
    rw [absAddIntGo]
    cases hrec : absAddIntGo ds ((d + s) / DB) with
    | nil =>
      obtain ⟨h1, h2⟩ := (absAddIntGo_eq_nil_iff ..).mp hrec
      subst h1
      have hdne : d ≠ 0 := by simpa [NoTopZero] using hn
      have hlt : d + s < DB := by simp only [DB] at hd hs h2 ⊢; omega
      simp [NoTopZero, Nat.mod_eq_of_lt hlt]
      omega
    | cons x t =>
      have := ih _ (fun y hy => hb y (List.mem_cons_of_mem _ hy)) (noTopZero_tail hn) hq
      rw [hrec] at this
      simpa [NoTopZero, List.getLast?_cons_cons] using this

theorem absSubIntGo_val (l : List Nat) : ∀ b, BoundedMag l → b ≤ 1 → b ≤ valNat l →
    valNat (absSubIntGo l b) = valNat l - b := by
  induction l with
  | nil =>
    intro b _ _ hle
    simp only [valNat_nil] at hle
    interval_cases b
    simp [absSubIntGo]
  | cons d ds ih =>
    intro b hb hb1 hle
    have hd : d < DB := hb d (List.mem_cons_self ..)
    have hbds : BoundedMag ds := fun x hx => hb x (List.mem_cons_of_mem _ hx)
    simp only [absSubIntGo]
    rcases Nat.lt_or_ge d b with hdb | hdb
    · -- d = 0, b = 1: the limb wraps and the borrow propagates
      have hd0 : d = 0 := by omega
      have hbone : b = 1 := by omega
      subst hd0; subst hbone
      have hds : 1 ≤ valNat ds := by
        rw [valNat_cons] at hle
        simp only [DB] at hle
        omega
      have hdiff : (0 + DD - 1) % DD = DD - 1 := by simp [DD]
      rw [hdiff, if_pos (by simp only [DD, DB]; omega), valNat_cons,
        ih 1 hbds (by omega) hds, valNat_cons]
      simp only [DD, DB] at hds ⊢
      omega
    · -- no borrow out of this limb
      have hdiff : (d + DD - b) % DD = d - b := by
        simp only [DD, DB] at hd ⊢
        omega
      rw [hdiff, if_neg (by simp only [DB] at hd ⊢; omega), valNat_cons,
        ih 0 hbds (by omega) (by omega), valNat_cons]
      simp only [DB] at hd hle ⊢
      omega

theorem absSubIntGo_bounded (l : List Nat) : ∀ b, BoundedMag (absSubIntGo l b) := by
  induction l with
  | nil => intro b d hd; simp [absSubIntGo] at hd
  | cons x ds ih =>
    intro b d hd
    rw [absSubIntGo] at hd
    rcases List.mem_cons.mp hd with rfl | hd
    · exact Nat.mod_lt _ DB_pos
    · exact ih _ d hd

/-! ## Increment, decrement, unary minus, `~` -/

theorem value_negate (x : BigInt) : value (negate x) = -value x := by
  rw [value_eq_cond, value_eq_cond]
  cases hn : x.negative <;> simp [negate, hn]

theorem incAssign_spec (a : BigInt) (h : Wf a) (hne : a.negative = true → a.data ≠ []) :
    value (incAssign a) = value a + 1 ∧ Wf (incAssign a) := by
  cases hneg : isNeg a
  · -- abs_add_int(1)
    have hbr : incAssign a = { a with data := absAddIntMag a.data 1 } := by
      unfold incAssign
      rw [hneg]
      simp
    have hflag : a.negative = false := by
      cases hflag : a.negative
      · rfl
      · exfalso
        have hd := hne hflag
        unfold isNeg isZero at hneg
        rw [hflag] at hneg
        simp only [Bool.true_and, Bool.not_eq_false'] at hneg
        exact hd (by simpa using hneg)
    rw [hbr]
    constructor
    · rw [value_eq_cond, value_eq_cond]
      simp only [hflag, Bool.false_eq_true, if_false]
      unfold absAddIntMag
      rw [absAddIntGo_val a.data 1 h.1 (by simp [DB])]
      push_cast
      ring
    · exact ⟨absAddIntGo_bounded a.data 1,
        absAddIntGo_noTop a.data 1 h.1 h.2 (by simp [DB])⟩
  · -- abs_sub_int(1)
    have hbr : incAssign a = { a with data := absSubIntMag a.data 1 } := by
      unfold incAssign
      rw [hneg]
      simp
    have hd : a.data ≠ [] := by
      unfold isNeg isZero at hneg
      intro hc
      rw [hc] at hneg
      simp at hneg
    have hflag : a.negative = true := by
      unfold isNeg isZero at hneg
      cases hf : a.negative
      · rw [hf] at hneg; simp at hneg
      · rfl
    have hpos : 1 ≤ valNat a.data := valNat_pos h.2 hd
    rw [hbr]
    constructor
    · rw [value_eq_cond, value_eq_cond]
      simp only [hflag, if_true]
      unfold absSubIntMag
      rw [valNat_trimMag, absSubIntGo_val a.data 1 h.1 (by omega) hpos]
      have hcast : ((valNat a.data - 1 : Nat) : Int) = (valNat a.data : Int) - 1 := by
        omega
      rw [hcast]
      ring
    · exact ⟨boundedMag_trimMag (absSubIntGo_bounded a.data 1), noTopZero_trimMag _⟩

theorem decAssign_spec (a : BigInt) (h : Wf a) :
    value (decAssign a) = value a - 1 ∧ Wf (decAssign a) := by
  unfold decAssign
  cases hz : isZero a
  · -- (++negate()).negate()
    have hd : a.data ≠ [] := by
      unfold isZero at hz
      simpa [List.isEmpty_iff] using hz
    simp only [Bool.false_eq_true, if_false]
    have hinc := incAssign_spec (negate a) ⟨h.1, h.2⟩ (fun _ => hd)
    constructor
    · rw [value_negate, hinc.1, value_negate]
      ring
    · exact hinc.2
  · -- decrement from zero: magnitude [1], negative
    have hd : a.data = [] := by
      unfold isZero at hz
      simpa [List.isEmpty_iff] using hz
    simp only [if_true]
    constructor
    · rw [value_eq_cond, value_eq_cond]
      simp [hd, valNat_cons, DB]
    · constructor
      · intro x hx
        simp only [List.mem_singleton] at hx
        subst hx
        simp [DB]
      · simp [NoTopZero]

end BI

namespace BI

/-! ## `abs_subtract` by one (the only subtraction shape `~`/`-(a+1)` needs) -/

theorem boundedMag_set {l : List Nat} {i x : Nat} (hl : BoundedMag l) (hx : x < DB) :
    BoundedMag (l.set i x) := by
  intro d hd
  rcases List.mem_or_eq_of_mem_set hd with hd | rfl
  · exact hl d hd
  · exact hx

theorem absSubGo2_zero_borrow (self : List Nat) (cnt i : Nat) (out : List Nat) :
    absSubGo2 self cnt i 0 out = out := by
  cases cnt with
  | zero => rfl
  | succ n => rw [absSubGo2]; simp

theorem absSubGo2_shift (d x : Nat) (self out : List Nat) :
    ∀ (cnt i b : Nat),
      absSubGo2 (d :: self) cnt (i + 1) b (x :: out) = x :: absSubGo2 self cnt i b out := by
  intro cnt
  induction cnt generalizing self out with
  | zero => intro i b; rfl
  | succ n ih =>
    intro i b
    rw [absSubGo2, absSubGo2]
    rcases eq_or_ne b 0 with rfl | hb
    · simp
    · rw [if_neg hb, if_neg hb]
      simp only [List.getD_cons_succ, List.set_cons_succ]
      apply ih

theorem absSubGo2_dec : ∀ (t : List Nat) (cnt : Nat), BoundedMag t → 1 ≤ valNat t →
    t.length ≤ cnt → valNat (absSubGo2 t cnt 0 1 t) = valNat t - 1 := by
  intro t
  induction t with
  | nil => intro cnt _ hpos _; simp at hpos
  | cons d ts ih =>
    intro cnt hb hpos hlen
    have hd : d < DB := hb d (List.mem_cons_self ..)
    have hbts : BoundedMag ts := fun x hx => hb x (List.mem_cons_of_mem _ hx)
    obtain ⟨c, rfl⟩ : ∃ c, cnt = c + 1 := by
      cases cnt
      · simp at hlen
      · exact ⟨_, rfl⟩
    rw [absSubGo2, if_neg (by omega)]
    simp only [List.getD_cons_zero]
    rcases Nat.lt_or_ge d 1 with hd0 | hd1
    · -- d = 0: wrap to DB - 1, borrow continues
      have hd0' : d = 0 := by omega
      subst hd0'
      have hdiff : (0 + DD - 1) % DD = DD - 1 := by simp [DD]
      have hmod : (DD - 1) % DB = DB - 1 := by norm_num [DD, DB]
      have hbw : (if DD - 1 > DB - 1 then (1 : Nat) else 0) = 1 := by norm_num [DD, DB]
      simp only [hdiff, hbw, hmod, List.set_cons_zero, absSubGo2_shift]
      have hts : 1 ≤ valNat ts := by
        rw [valNat_cons] at hpos
        simp only [DB] at hpos
        omega
      rw [valNat_cons, ih c hbts hts (by simpa using hlen), valNat_cons]
      simp only [DB] at hts ⊢
      omega
    · -- d ≥ 1: the borrow stops here
      have hdiff : (d + DD - 1) % DD = d - 1 := by simp only [DD, DB] at hd ⊢; omega
      have hmod : (d - 1) % DB = d - 1 := Nat.mod_eq_of_lt (by simp only [DB] at hd ⊢; omega)
      have hbw : (if d - 1 > DB - 1 then (1 : Nat) else 0) = 0 := by
        rw [if_neg]
        simp only [DB] at hd ⊢
        omega
      simp only [hdiff, hbw, hmod, List.set_cons_zero, absSubGo2_zero_borrow, valNat_cons]
      simp only [DB] at hd ⊢
      omega

theorem absSubGo2_bounded (self : List Nat) :
    ∀ (cnt i b : Nat) (out : List Nat), BoundedMag out →
      BoundedMag (absSubGo2 self cnt i b out) := by
  intro cnt
  induction cnt with
  | zero => intro i b out h; exact h
  | succ n ih =>
    intro i b out h
    rw [absSubGo2]
    rcases eq_or_ne b 0 with rfl | hb
    · simpa using h
    · rw [if_neg hb]
      exact ih _ _ _ (boundedMag_set h (Nat.mod_lt _ DB_pos))

/-- `abs_subtract(rhs = [1], output = self, max_size ≥ |self|)` — the shape
the `operator+=` branches reach for `a + 1` with `a` negative — decrements
the magnitude. -/
theorem absSubMag_one (l : List Nat) (ms : Nat) (hb : BoundedMag l)
    (hpos : 1 ≤ valNat l) (hms : l.length ≤ ms) (hm1 : 1 ≤ ms) :
    valNat (absSubMag l [1] l ms) = valNat l - 1 ∧
    BoundedMag (absSubMag l [1] l ms) ∧ NoTopZero (absSubMag l [1] l ms) := by
  obtain ⟨d, t, rfl⟩ : ∃ d t, l = d :: t := by
    cases l with
    | nil => simp at hpos
    | cons d t => exact ⟨d, t, rfl⟩
  have hd : d < DB := hb d (List.mem_cons_self ..)
  have hbt : BoundedMag t := fun x hx => hb x (List.mem_cons_of_mem _ hx)
  have hsz1 : min ms ([1] : List Nat).length = 1 := by simp; omega
  have hsz2 : min ms (d :: t).length = t.length + 1 := by
    simp only [List.length_cons] at hms ⊢
    omega
  have hgo1 : absSubGo1 (d :: t) [1] 1 0 0 (d :: t) =
      (((d + DD - 1) % DD % DB) :: t,
        if (d + DD - 1) % DD > DB - 1 then 1 else 0) := by
    rw [absSubGo1, absSubGo1]
    simp
  simp only [absSubMag, hsz1, hsz2, hgo1, Nat.add_sub_cancel]
  rcases Nat.lt_or_ge d 1 with hd0 | hd1
  · -- low limb is zero: borrow propagates into go2
    have hd0e : d = 0 := by omega
    subst hd0e
    have hdiff : (0 + DD - 1) % DD = DD - 1 := by simp [DD]
    have hmod : (DD - 1) % DB = DB - 1 := by norm_num [DD, DB]
    have hbw : (if DD - 1 > DB - 1 then (1 : Nat) else 0) = 1 := by norm_num [DD, DB]
    simp only [hdiff, hmod, hbw, absSubGo2_shift]
    have hts : 1 ≤ valNat t := by
      rw [valNat_cons] at hpos
      simp only [DB] at hpos
      omega
    have hval := absSubGo2_dec t t.length hbt hts (le_refl _)
    refine ⟨?_, ?_, noTopZero_trimMag _⟩
    · rw [valNat_trimMag, valNat_cons, hval, valNat_cons]
      simp only [DB] at hts ⊢
      omega
    · refine boundedMag_trimMag ?_
      intro x hx
      rcases List.mem_cons.mp hx with rfl | hx
      · simp only [DB]; omega
      · exact absSubGo2_bounded t _ _ _ _ hbt x hx
  · -- no borrow: go2 exits at once
    have hdiff : (d + DD - 1) % DD = d - 1 := by simp only [DD, DB] at hd ⊢; omega
    have hmod : (d - 1) % DB = d - 1 := Nat.mod_eq_of_lt (by simp only [DB] at hd ⊢; omega)
    have hbw : (if d - 1 > DB - 1 then (1 : Nat) else 0) = 0 := by
      rw [if_neg]
      simp only [DB] at hd ⊢
      omega
    simp only [hdiff, hmod, hbw, absSubGo2_zero_borrow]
    refine ⟨?_, ?_, noTopZero_trimMag _⟩
    · rw [valNat_trimMag, valNat_cons, valNat_cons]
      simp only [DB] at hd ⊢
      omega
    · refine boundedMag_trimMag ?_
      intro x hx
      rcases List.mem_cons.mp hx with rfl | hx
      · simp only [DB] at hd ⊢; omega
      · exact hbt x hx

end BI

namespace BI

/-! ## `a + 1` through `operator+=`, and claim C6 -/

theorem absSubGo1_bounded (self rhs : List Nat) :
    ∀ (cnt i b : Nat) (out : List Nat), BoundedMag out →
      BoundedMag (absSubGo1 self rhs cnt i b out).1 := by
  intro cnt
  induction cnt with
  | zero => intro i b out h; exact h
  | succ n ih =>
    intro i b out h
    rw [absSubGo1]
    exact ih _ _ _ (boundedMag_set h (Nat.mod_lt _ DB_pos))

/-- Every branch of `abs_subtract` writes masked limbs into the output and
trims, so (for any operands) the output stays bounded and canonical. -/
theorem absSubMag_wf (self rhs out0 : List Nat) (ms : Nat) (h : BoundedMag out0) :
    BoundedMag (absSubMag self rhs out0 ms) ∧ NoTopZero (absSubMag self rhs out0 ms) := by
  unfold absSubMag
  exact ⟨boundedMag_trimMag (absSubGo2_bounded _ _ _ _ _
    (absSubGo1_bounded self rhs _ 0 0 out0 h)), noTopZero_trimMag _⟩

attribute [irreducible] absSubGo1 absSubGo2 absSubMag absSubIntGo

theorem oneB_eq : oneB = { data := [1], negative := false } := rfl

theorem boundedMag_one : BoundedMag [1] := by
  intro d hd
  simp only [List.mem_singleton] at hd
  subst hd
  simp [DB]

theorem noTopZero_one : NoTopZero [1] := by simp [NoTopZero]

theorem stripEqHigh_single (d : Nat) :
    stripEqHigh [d] [1] = if d = 1 then [] else [d] := by
  rcases eq_or_ne d 1 with rfl | hne
  · simp [stripEqHigh, stripEqHighRev]
  · simp [stripEqHigh, stripEqHighRev, hne]

theorem wf_negate {x : BigInt} (h : Wf x) : Wf (negate x) := h

theorem addOne_spec (a : BigInt) (h : Clean a) :
    value (opAdd a oneB) = value a + 1 ∧ Wf (opAdd a oneB) := by
  obtain ⟨adata, aneg⟩ := a
  obtain ⟨⟨hbnd, htop⟩, hclean, hlsz⟩ := h
  simp only at hbnd htop hclean hlsz
  have honeg : isNeg oneB = false := rfl
  cases hneg : isNeg ⟨adata, aneg⟩
  · -- same sign (both non-negative): abs_add
    have hflag : aneg = false := by
      cases hf : aneg
      · rfl
      · unfold isNeg isZero at hneg
        rw [hf] at hneg
        simp only [Bool.true_and, Bool.not_eq_false'] at hneg
        have h0 := hclean (by simpa using hneg)
        rw [hf] at h0
        cases h0
    subst hflag
    have hbr : opAdd ⟨adata, false⟩ oneB = ⟨absAddMag adata [1], false⟩ := by
      unfold opAdd addAssign
      rw [hneg, honeg]
      simp [oneB_eq]
    rw [hbr]
    constructor
    · rw [value_eq_cond, value_eq_cond]
      simp only [Bool.false_eq_true, if_false]
      rw [absAddMag_val adata [1] hbnd boundedMag_one]
      have h1 : valNat [1] = 1 := by simp [valNat_cons]
      rw [h1]
      push_cast
      ring
    · exact ⟨absAddMag_bounded adata [1],
        absAddMag_noTop adata [1] hbnd boundedMag_one htop noTopZero_one⟩
  · -- a negative: subtraction branches
    have hflag : aneg = true := by
      unfold isNeg isZero at hneg
      cases hf : aneg
      · rw [hf] at hneg; simp at hneg
      · rfl
    subst hflag
    have hdne : adata ≠ [] := by
      unfold isNeg isZero at hneg
      intro hc
      rw [hc] at hneg
      simp at hneg
    have hpos : 1 ≤ valNat adata := valNat_pos htop hdne
    rcases eq_or_ne adata.length 1 with hlen1 | hlen1
    · -- equal sizes: the stripping branch
      obtain ⟨d, hd⟩ := List.length_eq_one.mp hlen1
      subst hd
      have hdDB : d < DB := hbnd d (List.mem_cons_self ..)
      have hd0 : d ≠ 0 := by simpa [NoTopZero] using htop
      rcases eq_or_ne d 1 with rfl | hd1
      · -- a = -1: everything strips away, result is (dirty) zero
        have hbr : opAdd ⟨[1], true⟩ oneB = ⟨[], true⟩ := rfl
        rw [hbr]
        constructor
        · rw [value_eq_cond, value_eq_cond]
          simp [valNat_cons]
        · exact ⟨fun x hx => absurd hx (List.not_mem_nil x), noTopZero_nil⟩
      · -- a = -d, d ≥ 2
        have hd2 : 2 ≤ d := by omega
        have hstrip : stripEqHigh [d] [1] = [d] := by
          rw [stripEqHigh_single, if_neg hd1]
        have hbr : opAdd ⟨[d], true⟩ oneB = ⟨absSubMag [d] [1] [d] 1, true⟩ := by
          unfold opAdd addAssign
          rw [hneg, honeg]
          rw [if_neg (by simp)]
          rw [if_pos (by simp [oneB_eq])]
          simp only [oneB_eq, hstrip]
          rw [if_neg (by simp)]
          rw [if_pos (show ([d] : List Nat).getLastD 0 >
              ([1] : List Nat).getD (([d] : List Nat).length - 1) 0 by
            have h1 : ([d] : List Nat).getLastD 0 = d := by simp
            have h2 : ([1] : List Nat).getD (([d] : List Nat).length - 1) 0 = 1 := by
              simp [List.getD]
            rw [h1, h2]
            omega)]
          unfold absSubtract
          simp [isNeg, isZero]
        rw [hbr]
        have hsub := absSubMag_one [d] 1 hbnd
          (by simp [valNat_cons]; omega) (by simp) (by omega)
        constructor
        · rw [value_eq_cond, value_eq_cond]
          simp only [if_true]
          rw [hsub.1]
          simp only [valNat_cons, valNat_nil]
          simp only [DB] at hdDB ⊢
          omega
        · exact ⟨hsub.2.1, hsub.2.2⟩
    · -- |a| has at least two limbs: plain abs_subtract
      have hlen2 : 1 < adata.length := by
        rcases Nat.lt_or_ge adata.length 1 with hc | hc
        · interval_cases ha : adata.length
          · exact absurd (List.length_eq_zero.mp ha) hdne
        · omega
      have hbr : opAdd ⟨adata, true⟩ oneB = ⟨absSubMag adata [1] adata SZMAX, true⟩ := by
        unfold opAdd addAssign
        rw [hneg, honeg]
        rw [if_neg (by simp)]
        rw [if_neg (by simp [oneB_eq]; omega)]
        rw [if_pos (by simp [oneB_eq]; omega)]
        unfold absSubtract
        have hie : adata.isEmpty = false := by simpa [List.isEmpty_iff] using hdne
        simp [isNeg, isZero, hie, oneB_eq]
      rw [hbr]
      have hsub := absSubMag_one adata SZMAX hbnd hpos hlsz (by norm_num [SZMAX])
      constructor
      · rw [value_eq_cond, value_eq_cond]
        simp only [if_true]
        rw [hsub.1]
        omega
      · exact ⟨hsub.2.1, hsub.2.2⟩

/-- C6: for every (well-formed) BigInt `a`, `~a = -(a + 1)` holds — both as
library-level equality (`operator==`) between `~a` and `-(a + 1)` computed by
the library's own `operator+`/unary `operator-`, and at the denoted-value
level; in particular `~0 = -1`. -/
theorem claim_C6 (a : BigInt) (h : Clean a) :
    eqB (opNot a) (opNeg (opAdd a oneB)) = true ∧
    value (opNot a) = -(value a + 1) ∧
    value (opNot zeroB) = -1 := by
  have hdec := decAssign_spec (negate a) (wf_negate h.1)
  have hval1 : value (opNot a) = -(value a + 1) := by
    unfold opNot
    rw [hdec.1, value_negate]
    ring
  have hadd := addOne_spec a h
  have hval2 : value (opNeg (opAdd a oneB)) = -(value a + 1) := by
    unfold opNeg
    rw [value_negate, hadd.1]
  refine ⟨?_, hval1, by decide⟩
  exact eqB_of_value hdec.2 (wf_negate hadd.2) (hval1.trans hval2.symm)

/-- `~a = -(a + 1)` instantiated at `a = 41` (`Clean` discharged there). -/
theorem claim_C6_witness :
    eqB (opNot (ofIntB 41)) (opNeg (opAdd (ofIntB 41) oneB)) = true ∧
    value (opNot (ofIntB 41)) = -(value (ofIntB 41) + 1) := by
  have h := claim_C6 (ofIntB 41)
    (by unfold Clean Wf BoundedMag NoTopZero; decide)
  exact ⟨h.1, h.2.1⟩

end BI

namespace BI

/-! ## Claim C7: canonical form after every public operation -/

theorem DB_eq_pow : DB = 2 ^ 32 := by norm_num [DB]

theorem getD_lt_of_bounded {l : List Nat} (h : BoundedMag l) (i : Nat) :
    l.getD i 0 < DB := by
  by_cases hi : i < l.length
  · rw [List.getD_eq_getElem l 0 hi]
    exact h _ (List.getElem_mem hi)
  · rw [getD_zero_of_le (Nat.le_of_not_lt hi)]
    exact DB_pos

theorem mem_stripEqHighRev {y r : List Nat} {x : Nat} :
    x ∈ stripEqHighRev y r → x ∈ r := by
  induction r with
  | nil => intro h; cases h
  | cons d rest ih =>
    intro h
    rw [stripEqHighRev] at h
    by_cases hc : (d == y.getD rest.length 0) = true
    · rw [if_pos hc] at h
      exact List.mem_cons_of_mem _ (ih h)
    · rw [if_neg hc] at h
      exact h

theorem boundedMag_stripEqHigh {l y : List Nat} (h : BoundedMag l) :
    BoundedMag (stripEqHigh l y) := by
  intro x hx
  unfold stripEqHigh at hx
  rw [List.mem_reverse] at hx
  have := mem_stripEqHighRev hx
  rw [List.mem_reverse] at this
  exact h x this


theorem addAssign_noTop {a b : BigInt} (ha : Wf a) (hb : Wf b) :
    NoTopZero (addAssign a b).data := by
  simp only [addAssign]
  by_cases h1 : (isNeg a == isNeg b) = true
  · rw [if_pos h1]
    exact absAddMag_noTop _ _ ha.1 hb.1 ha.2 hb.2
  · rw [if_neg h1]
    by_cases h2 : (a.data.length == b.data.length) = true
    · rw [if_pos h2]
      by_cases h3 : (stripEqHigh a.data b.data).isEmpty = true
      · rw [if_pos h3]
        have he : stripEqHigh a.data b.data = [] := by
          simpa [List.isEmpty_iff] using h3
        simp only [he]
        exact noTopZero_nil
      · rw [if_neg h3]
        have hbs : BoundedMag (stripEqHigh a.data b.data) := boundedMag_stripEqHigh ha.1
        by_cases h4 : (stripEqHigh a.data b.data).getLastD 0 >
            b.data.getD ((stripEqHigh a.data b.data).length - 1) 0
        · rw [if_pos h4]
          exact (absSubMag_wf _ _ _ _ hbs).2
        · rw [if_neg h4]
          exact (absSubMag_wf _ _ _ _ hbs).2
    · rw [if_neg h2]
      by_cases h5 : a.data.length > b.data.length
      · rw [if_pos h5]
        exact (absSubMag_wf _ _ _ _ ha.1).2
      · rw [if_neg h5]
        exact (absSubMag_wf _ _ _ _ ha.1).2

theorem incAssign_noTop {a : BigInt} (h : Wf a) : NoTopZero (incAssign a).data := by
  unfold incAssign
  cases hneg : isNeg a
  · rw [if_pos (by decide)]
    exact absAddIntGo_noTop a.data 1 h.1 h.2 DB_gt_one
  · rw [if_neg (by decide)]
    exact noTopZero_trimMag _

theorem absDivIntGo_bounded (k : Nat) :
    ∀ (l : List Nat) (rem : Nat), BoundedMag (absDivIntGo k l rem).1 := by
  intro l
  induction l with
  | nil => intro rem x hx; simp [absDivIntGo] at hx
  | cons d ds ih =>
    intro rem x hx
    simp only [absDivIntGo] at hx
    rcases List.mem_cons.mp hx with rfl | hx2
    · exact Nat.mod_lt _ DB_pos
    · exact ih _ x hx2

theorem absDivIntMag_bounded (l : List Nat) (k : Nat) : BoundedMag (absDivIntMag l k).1 := by
  intro x hx
  have hx2 := mem_trimMag hx
  rw [List.mem_reverse] at hx2
  exact absDivIntGo_bounded k l.reverse 0 x hx2

theorem absDivIntMag_noTop (l : List Nat) (k : Nat) : NoTopZero (absDivIntMag l k).1 :=
  noTopZero_trimMag _

theorem shrAssign_noTop {a : BigInt} (h : Wf a) (s : Nat) :
    NoTopZero (shrAssign a s).data := by
  simp only [shrAssign]
  by_cases h1 : a.data.length < s / 32
  · rw [if_pos h1]
    exact noTopZero_nil
  · rw [if_neg h1]
    have hbd : BoundedMag (absDivIntMag (a.data.drop (s / 32)) (2 ^ (s % 32))).1 :=
      absDivIntMag_bounded _ _
    have hnt : NoTopZero (absDivIntMag (a.data.drop (s / 32)) (2 ^ (s % 32))).1 :=
      absDivIntMag_noTop _ _
    by_cases h2 : isNeg
        ({ a with data := (absDivIntMag (a.data.drop (s / 32)) (2 ^ (s % 32))).1 } : BigInt)
        = true
    · rw [if_pos h2]
      exact absAddIntGo_noTop _ 1 hbd hnt DB_gt_one
    · rw [if_neg h2]
      exact hnt

theorem divRem_shape {a b : BigInt} (ha : NoTopZero a.data) {qr : BigInt × BigInt}
    (h : divRem a b = Except.ok qr) :
    NoTopZero qr.1.data ∧ NoTopZero qr.2.data := by
  simp only [divRem] at h
  by_cases h0 : isZero b = true
  · rw [if_pos h0] at h
    exact Except.noConfusion h
  · rw [if_neg h0] at h
    by_cases h1 : (isZero a || decide (a.data.length < b.data.length)) = true
    · rw [if_pos h1] at h
      have h2 := Except.ok.inj h
      subst h2
      exact ⟨noTopZero_nil, ha⟩
    · rw [if_neg h1] at h
      have h2 := Except.ok.inj h
      subst h2
      exact ⟨noTopZero_trimMag _, absDivIntMag_noTop _ _⟩

theorem bigOfULL_noTop {v : Nat} (hv : v < DD) (ng : Bool) :
    NoTopZero (bigOfULL v ng).data := by
  simp only [bigOfULL]
  by_cases h0 : v = 0
  · rw [if_pos h0]
    exact noTopZero_nil
  · rw [if_neg h0]
    by_cases h1 : v / DB = 0
    · rw [if_pos h1]
      have hvDB : v < DB := by simp only [DB] at h1 ⊢; omega
      simp only [NoTopZero, List.getLast?_singleton, ne_eq, Option.some.injEq,
        Nat.mod_eq_of_lt hvDB]
      exact h0
    · rw [if_neg h1]
      have hq : v / DB < DB := by simp only [DD, DB] at hv ⊢; omega
      have hl : ([v % DB, v / DB] : List Nat).getLast? = some (v / DB) := rfl
      simp only [NoTopZero, Nat.mod_eq_of_lt hq, hl, ne_eq, Option.some.injEq]
      exact h1

theorem fromChars_noTop {s : List Char} {x : BigInt} (h : fromChars s = Except.ok x) :
    NoTopZero x.data := by
  simp only [fromChars] at h
  by_cases he : (if (s.head? == some '-') = true then s.tail else s).isEmpty = true
  · rw [if_pos he] at h
    exact Except.noConfusion h
  · rw [if_neg he] at h
    cases hp : parseLoop [] (if (s.head? == some '-') = true then s.tail else s) with
    | error e =>
      rw [hp] at h
      simp only [Except.map] at h
      exact Except.noConfusion h
    | ok mag =>
      rw [hp] at h
      simp only [Except.map] at h
      have h3 := Except.ok.inj h
      rw [← h3]
      exact noTopZero_trimMag _

theorem value_zero_iff {x : BigInt} (hx : NoTopZero x.data) :
    value x = 0 ↔ x.data = [] := by
  rw [value_eq_cond]
  constructor
  · intro hv
    by_contra hne
    have hp := valNat_pos hx hne
    cases hb : x.negative
    · rw [hb, if_neg (by decide)] at hv
      omega
    · rw [hb, if_pos rfl] at hv
      omega
  · intro h
    rw [h]
    simp

/-- C7: canonical-form invariant — after every public operation (arithmetic,
bitwise, shifts, increment/decrement, unary minus/complement, division with
its quotient and remainder, parsing, construction from a built-in integer),
the highest limb of the result's magnitude, if any, is non-zero; consequently
the value 0 is represented exactly by the empty limb sequence. -/
theorem claim_C7 (a b : BigInt) (ha : Wf a) (hb : Wf b) (s v : Nat) (hv : v < DD)
    (ng : Bool) (str : List Char) :
    NoTopZero (opAdd a b).data ∧
    NoTopZero (opSub a b).data ∧
    NoTopZero (opMul a b).data ∧
    NoTopZero (subAssignSelf a).data ∧
    NoTopZero (mulAssignSelf a).data ∧
    (∀ q r : BigInt, divRem a b = Except.ok (q, r) →
      NoTopZero q.data ∧ NoTopZero r.data) ∧
    NoTopZero (opAnd a b).data ∧
    NoTopZero (opOr a b).data ∧
    NoTopZero (opXor a b).data ∧
    NoTopZero (shlAssign a s).data ∧
    NoTopZero (shrAssign a s).data ∧
    NoTopZero (incAssign a).data ∧
    NoTopZero (decAssign a).data ∧
    NoTopZero (opNot a).data ∧
    NoTopZero (opNeg a).data ∧
    NoTopZero (bigOfULL v ng).data ∧
    (∀ x : BigInt, fromChars str = Except.ok x → NoTopZero x.data) ∧
    (∀ x : BigInt, NoTopZero x.data → (value x = 0 ↔ x.data = [])) := by
  refine ⟨addAssign_noTop ha hb, addAssign_noTop (wf_negate ha) hb,
    noTopZero_trimMag _, addAssign_noTop (wf_negate ha) (wf_negate ha),
    noTopZero_trimMag _, ?_,
    noTopZero_trimMag _, noTopZero_trimMag _, noTopZero_trimMag _,
    noTopZero_trimMag _, shrAssign_noTop ha s, incAssign_noTop ha,
    (decAssign_spec a ha).2.2, (decAssign_spec (negate a) (wf_negate ha)).2.2,
    ha.2, bigOfULL_noTop hv ng, ?_, ?_⟩
  · intro q r h
    exact divRem_shape ha.2 h
  · intro x h
    exact fromChars_noTop h
  · intro x hx
    exact value_zero_iff hx

/-- The canonical-form invariant instantiated at concrete operands
(`a = 5`, `b = -3`, shift 40, constructor value 12, the string `"7"`). -/
theorem claim_C7_witness :
    NoTopZero (opAdd (ofIntB 5) (ofIntB (-3))).data ∧
    NoTopZero (shrAssign (ofIntB 5) 40).data ∧
    NoTopZero (decAssign (ofIntB 5)).data := by
  have h := claim_C7 (ofIntB 5) (ofIntB (-3))
    (by unfold Wf BoundedMag NoTopZero; decide)
    (by unfold Wf BoundedMag NoTopZero; decide)
    40 12 (by decide) true [Char.ofNat 55]
  exact ⟨h.1, h.2.2.2.2.2.2.2.2.2.2.1, h.2.2.2.2.2.2.2.2.2.2.2.2.1⟩

/-! ## Decimal digit arithmetic (for the string constructor and to_string) -/

theorem numBE_go (cs : List Char) : ∀ acc : Nat,
    cs.foldl (fun acc c => acc * 10 + (c.toNat - 48)) acc =
      acc * 10 ^ cs.length + numBE cs := by
  induction cs with
  | nil => intro acc; simp [numBE]
  | cons c cs ih =>
    intro acc
    simp only [List.foldl_cons, List.length_cons]
    rw [ih (acc * 10 + (c.toNat - 48))]
    have h2 : numBE (c :: cs) = (c.toNat - 48) * 10 ^ cs.length + numBE cs := by
      rw [numBE, List.foldl_cons]
      rw [ih (0 * 10 + (c.toNat - 48))]
      ring_nf
    rw [h2]
    ring

theorem numBE_append (x y : List Char) :
    numBE (x ++ y) = numBE x * 10 ^ y.length + numBE y := by
  rw [numBE, List.foldl_append]
  rw [numBE_go y (x.foldl (fun acc c => acc * 10 + (c.toNat - 48)) 0)]
  rfl

theorem digit_toNat_le {c : Char} (h : isDigitCh c = true) : c.toNat - 48 ≤ 9 := by
  unfold isDigitCh at h
  simp only [Bool.and_eq_true, decide_eq_true_eq] at h
  omega

theorem numBE_lt (cs : List Char) (h : ∀ c ∈ cs, isDigitCh c = true) :
    numBE cs < 10 ^ cs.length := by
  induction cs with
  | nil => simp [numBE]
  | cons c cs ih =>
    have hc := digit_toNat_le (h c (List.mem_cons_self ..))
    have hcs := ih fun x hx => h x (List.mem_cons_of_mem _ hx)
    have h2 : numBE (c :: cs) = (c.toNat - 48) * 10 ^ cs.length + numBE cs := by
      rw [numBE, List.foldl_cons, numBE_go]
      ring_nf
    rw [h2, List.length_cons, pow_succ]
    nlinarith

theorem numLE_go (x : List Char) : ∀ acc : Nat,
    x.foldr (fun c acc => (c.toNat - 48) + 10 * acc) acc =
      numLE x + 10 ^ x.length * acc := by
  induction x with
  | nil => intro acc; simp [numLE]
  | cons c cs ih =>
    intro acc
    simp only [List.foldr_cons, List.length_cons]
    rw [ih acc]
    have h2 : numLE (c :: cs) = (c.toNat - 48) + 10 * numLE cs := by
      rw [numLE, List.foldr_cons]
      rfl
    rw [h2]
    ring

theorem numLE_append (x y : List Char) :
    numLE (x ++ y) = numLE x + 10 ^ x.length * numLE y := by
  rw [numLE, List.foldr_append]
  rw [show y.foldr (fun c acc => (c.toNat - 48) + 10 * acc) 0 = numLE y from rfl]
  rw [numLE_go x (numLE y)]

theorem numBE_reverse (l : List Char) : numBE l.reverse = numLE l := by
  rw [numBE, List.foldl_reverse]
  induction l with
  | nil => rfl
  | cons c cs ih =>
    simp only [List.foldr_cons, numLE]
    rw [ih]
    have : ∀ acc : Nat, (c.toNat - 48) + 10 * acc = acc * 10 + (c.toNat - 48) := by
      intro acc; ring
    simp only [numLE] at *
    omega

/-! ## `abs_mul_int` value and bound -/

theorem absMulIntGo_bounded (l : List Nat) : ∀ k s, BoundedMag (absMulIntGo l k s) := by
  induction l with
  | nil =>
    intro k s x hx
    rcases eq_or_ne s 0 with rfl | hne
    · simp [absMulIntGo] at hx
    · simp [absMulIntGo, hne] at hx
      subst hx
      exact Nat.mod_lt _ DB_pos
  | cons d ds ih =>
    intro k s x hx
    simp only [absMulIntGo] at hx
    rcases List.mem_cons.mp hx with rfl | hx2
    · exact Nat.mod_lt _ DB_pos
    · exact ih _ _ x hx2

theorem absMulIntGo_val (l : List Nat) : ∀ k s, BoundedMag l → k ≤ DB → s < DB →
    valNat (absMulIntGo l k s) = valNat l * k + s := by
  induction l with
  | nil =>
    intro k s _ _ hs
    rcases eq_or_ne s 0 with rfl | hne
    · simp [absMulIntGo]
    · simp [absMulIntGo, hne, Nat.mod_eq_of_lt hs]
  | cons d ds ih =>
    intro k s hb hk hs
    have hd : d < DB := hb d (List.mem_cons_self ..)
    have hcar : (d * k + s) / DB < DB := by
      have h1 : d * k + s ≤ (DB - 1) * DB + (DB - 1) := by
        have := Nat.mul_le_mul (Nat.le_sub_one_of_lt hd) hk
        omega
      simp only [DB] at h1 ⊢
      omega
    rw [absMulIntGo, valNat_cons,
      ih k _ (fun x hx => hb x (List.mem_cons_of_mem _ hx)) hk hcar, valNat_cons]
    have hdm := Nat.div_add_mod (d * k + s) DB
    nlinarith [hdm]

theorem absMulIntMag_val (l : List Nat) (k : Nat) (hb : BoundedMag l) (hk : k ≤ DB) :
    valNat (absMulIntMag l k) = valNat l * k := by
  rw [absMulIntMag, valNat_trimMag, absMulIntGo_val l k 0 hb hk DB_pos]
  omega

theorem absMulIntMag_bounded (l : List Nat) (k : Nat) : BoundedMag (absMulIntMag l k) :=
  boundedMag_trimMag (absMulIntGo_bounded l k 0)

/-! ## The string constructor's chunk loop -/

theorem parseLoopF_ok : ∀ (f : Nat) (mag : List Nat) (s : List Char), s.length ≤ f →
    BoundedMag mag → (∀ c ∈ s, isDigitCh c = true) →
    ∃ mag2, parseLoopF f mag s = Except.ok mag2 ∧ BoundedMag mag2 ∧
      valNat mag2 = valNat mag * 10 ^ s.length + numBE s := by
  intro f
  induction f with
  | zero =>
    intro mag s hlen hb _
    have hs : s = [] := List.length_eq_zero.mp (Nat.le_zero.mp hlen)
    subst hs
    exact ⟨mag, rfl, hb, by simp [numBE]⟩
  | succ f ih =>
    intro mag s hlen hb hd
    cases s with
    | nil => exact ⟨mag, rfl, hb, by simp [numBE]⟩
    | cons c cs =>
      have hall : ((c :: cs).take 9).all isDigitCh = true := by
        rw [List.all_eq_true]
        intro x hx
        exact hd x (List.take_subset 9 (c :: cs) hx)
      have hclen : ((c :: cs).take 9).length ≤ 9 := by
        simpa using List.length_take_le 9 (c :: cs)
      have hchunklt : numBE ((c :: cs).take 9) < DB := by
        have h1 := numBE_lt _ fun x hx => hd x (List.take_subset 9 (c :: cs) hx)
        have h2 : (10 : Nat) ^ ((c :: cs).take 9).length ≤ 10 ^ 9 :=
          Nat.pow_le_pow_right (by norm_num) hclen
        have : (10 : Nat) ^ 9 < DB := by norm_num [DB]
        omega
      have hpowle : (10 : Nat) ^ ((c :: cs).take 9).length ≤ DB := by
        have h2 : (10 : Nat) ^ ((c :: cs).take 9).length ≤ 10 ^ 9 :=
          Nat.pow_le_pow_right (by norm_num) hclen
        have : (10 : Nat) ^ 9 < DB := by norm_num [DB]
        omega
      have hmul := absMulIntMag_val mag (10 ^ ((c :: cs).take 9).length) hb hpowle
      have hmulb := absMulIntMag_bounded mag (10 ^ ((c :: cs).take 9).length)
      have hadd := absAddIntGo_val _ (numBE ((c :: cs).take 9)) hmulb hchunklt
      have haddb := absAddIntGo_bounded
        (absMulIntMag mag (10 ^ ((c :: cs).take 9).length)) (numBE ((c :: cs).take 9))
      obtain ⟨mag2, hrun, hb2, hv2⟩ := ih
        (absAddIntMag (absMulIntMag mag (10 ^ ((c :: cs).take 9).length))
          (numBE ((c :: cs).take 9)))
        (cs.drop 8)
        (by simp only [List.length_cons] at hlen; simpa using by omega)
        haddb
        (fun x hx => hd x (List.mem_cons_of_mem _ (List.drop_subset 8 cs hx)))
      refine ⟨mag2, ?_, hb2, ?_⟩
      · rw [parseLoopF, if_pos hall]
        exact hrun
      · rw [hv2]
        show _ = valNat mag * 10 ^ (c :: cs).length + numBE (c :: cs)
        have hsplit : (c :: cs) = (c :: cs).take 9 ++ cs.drop 8 := by
          rw [show cs.drop 8 = (c :: cs).drop 9 from rfl]
          exact (List.take_append_drop 9 (c :: cs)).symm
        conv_rhs => rw [hsplit]
        rw [numBE_append, absAddIntMag, hadd, hmul]
        rw [show ((c :: cs).take 9 ++ cs.drop 8).length =
          ((c :: cs).take 9).length + (cs.drop 8).length from List.length_append ..]
        rw [pow_add]
        ring

theorem parseLoopF_error : ∀ (f : Nat) (mag : List Nat) (s : List Char), s.length ≤ f →
    (∃ c ∈ s, isDigitCh c = false) → parseLoopF f mag s = Except.error () := by
  intro f
  induction f with
  | zero =>
    intro mag s hlen hw
    have hs : s = [] := List.length_eq_zero.mp (Nat.le_zero.mp hlen)
    subst hs
    obtain ⟨c, hc, _⟩ := hw
    exact absurd hc (List.not_mem_nil c)
  | succ f ih =>
    intro mag s hlen hw
    cases s with
    | nil =>
      obtain ⟨c, hc, _⟩ := hw
      exact absurd hc (List.not_mem_nil c)
    | cons c cs =>
      by_cases hall : ((c :: cs).take 9).all isDigitCh = true
      · rw [parseLoopF, if_pos hall]
        obtain ⟨c0, hc0, hc0d⟩ := hw
        have hc0' : c0 ∈ (c :: cs).take 9 ++ cs.drop 8 := by
          rw [show cs.drop 8 = (c :: cs).drop 9 from rfl, List.take_append_drop]
          exact hc0
        rcases List.mem_append.mp hc0' with hmem | hmem
        · rw [List.all_eq_true] at hall
          rw [hall c0 hmem] at hc0d
          cases hc0d
        · exact ih _ (cs.drop 8)
            (by simp only [List.length_cons] at hlen; simpa using by omega)
            ⟨c0, hmem, hc0d⟩
      · rw [parseLoopF, if_neg hall]

theorem head_tail_singleton {s : List Char} (hh : s.head? = some '-') (ht : s.tail = []) :
    s = ['-'] := by
  cases s with
  | nil => cases hh
  | cons a t =>
    simp only [List.head?_cons, Option.some.injEq] at hh
    simp only [List.tail_cons] at ht
    rw [hh, ht]

/-- C5: the string constructor throws `ParseError` exactly on the empty
string, a lone `"-"`, or any non-digit after the optional leading `'-'`;
otherwise it succeeds and the constructed value is the (signed) decimal value
of the string. -/
theorem claim_C5 (s : List Char) :
    (fromChars s = Except.error () ↔
      (s = [] ∨ s = ['-'] ∨
        ∃ c ∈ (if s.head? == some '-' then s.tail else s), isDigitCh c = false)) ∧
    (∀ x : BigInt, fromChars s = Except.ok x →
      value x = if s.head? == some '-' then -(numBE s.tail : Int) else (numBE s : Int)) := by
  have hfc : fromChars s =
      (if (if (s.head? == some '-') = true then s.tail else s).isEmpty = true
       then Except.error ()
       else Except.map
         (fun mag => ({ data := trimMag mag, negative := s.head? == some '-' } : BigInt))
         (parseLoop [] (if (s.head? == some '-') = true then s.tail else s))) := rfl
  by_cases hemp : (if (s.head? == some '-') = true then s.tail else s).isEmpty = true
  · refine ⟨?_, ?_⟩
    · rw [hfc, if_pos hemp]
      refine ⟨fun _ => ?_, fun _ => rfl⟩
      by_cases hneg : (s.head? == some '-') = true
      · rw [if_pos hneg] at hemp
        have ht : s.tail = [] := by simpa [List.isEmpty_iff] using hemp
        exact Or.inr (Or.inl (head_tail_singleton (eq_of_beq hneg) ht))
      · rw [if_neg hneg] at hemp
        exact Or.inl (by simpa [List.isEmpty_iff] using hemp)
    · intro x hx
      rw [hfc, if_pos hemp] at hx
      exact Except.noConfusion hx
  · have hne : (if (s.head? == some '-') = true then s.tail else s) ≠ [] := by
      simpa [List.isEmpty_iff] using hemp
    by_cases hdig : ∀ c ∈ (if (s.head? == some '-') = true then s.tail else s),
        isDigitCh c = true
    · obtain ⟨mag, hrun, hbm, hval⟩ := parseLoopF_ok
        (if (s.head? == some '-') = true then s.tail else s).length []
        (if (s.head? == some '-') = true then s.tail else s) le_rfl
        (fun x hx => absurd hx (List.not_mem_nil x)) hdig
      have hok : fromChars s = Except.ok
          ({ data := trimMag mag, negative := s.head? == some '-' } : BigInt) := by
        rw [hfc, if_neg hemp]
        rw [show parseLoop [] (if (s.head? == some '-') = true then s.tail else s) =
          parseLoopF (if (s.head? == some '-') = true then s.tail else s).length []
            (if (s.head? == some '-') = true then s.tail else s) from rfl]
        rw [hrun]
        rfl
      refine ⟨?_, ?_⟩
      · rw [hok]
        refine ⟨fun h => Except.noConfusion h, ?_⟩
        rintro (rfl | rfl | ⟨c, hc, hcd⟩)
        · simp at hne
        · simp at hne
        · rw [hdig c hc] at hcd
          cases hcd
      · intro x hx
        rw [hok] at hx
        have h3 := Except.ok.inj hx
        subst h3
        rw [value_eq_cond]
        dsimp only
        rw [valNat_trimMag, hval]
        by_cases hneg : (s.head? == some '-') = true
        · rw [if_pos hneg, if_pos hneg]
          rw [if_pos hneg] 
          simp
        · rw [if_neg hneg, if_neg hneg]
          rw [if_neg hneg]
          simp
    · push_neg at hdig
      obtain ⟨c, hc, hcd⟩ := hdig
      have hcd' : isDigitCh c = false := by
        cases hb : isDigitCh c
        · rfl
        · exact absurd hb hcd
      have herr : fromChars s = Except.error () := by
        rw [hfc, if_neg hemp]
        rw [show parseLoop [] (if (s.head? == some '-') = true then s.tail else s) =
          parseLoopF (if (s.head? == some '-') = true then s.tail else s).length []
            (if (s.head? == some '-') = true then s.tail else s) from rfl]
        rw [parseLoopF_error _ _ _ le_rfl ⟨c, hc, hcd'⟩]
        rfl
      refine ⟨?_, ?_⟩
      · rw [herr]
        exact ⟨fun _ => Or.inr (Or.inr ⟨c, hc, hcd'⟩), fun _ => rfl⟩
      · intro x hx
        rw [herr] at hx
        exact Except.noConfusion hx

/-! ## `to_string`'s digit loop -/

theorem charDigit_facts (d : Nat) (hd : d < 10) :
    (Char.ofNat (d + 48)).toNat = d + 48 ∧ isDigitCh (Char.ofNat (d + 48)) = true := by
  interval_cases d <;> exact ⟨by decide, by decide⟩

theorem getLast?_cons_of_ne_nil {α} (a : α) {l : List α} (h : l ≠ []) :
    (a :: l).getLast? = l.getLast? := by
  cases l with
  | nil => exact absurd rfl h
  | cons b t => exact List.getLast?_cons_cons ..

theorem getLast?_append_of_ne_nil {α} (x : List α) {y : List α} (h : y ≠ []) :
    (x ++ y).getLast? = y.getLast? := by
  induction x with
  | nil => rfl
  | cons a t ih =>
    have hne : t ++ y ≠ [] := by
      intro hc
      exact h (List.append_eq_nil.mp hc).2
    rw [List.cons_append, getLast?_cons_of_ne_nil a hne, ih]

theorem numLE_replicate_zero (n : Nat) : numLE (List.replicate n (Char.ofNat 48)) = 0 := by
  induction n with
  | zero => rfl
  | succ n ih =>
    rw [List.replicate_succ]
    have : numLE (Char.ofNat 48 :: List.replicate n (Char.ofNat 48)) =
        ((Char.ofNat 48).toNat - 48) + 10 * numLE (List.replicate n (Char.ofNat 48)) := rfl
    rw [this, ih]
    decide

theorem pushDigitsF_spec : ∀ (f r : Nat), r ≤ f →
    (∀ c ∈ pushDigitsF f r, isDigitCh c = true) ∧
    numLE (pushDigitsF f r) = r ∧
    (pushDigitsF f r = [] ↔ r = 0) ∧
    (r ≠ 0 → (pushDigitsF f r).getLast? ≠ some (Char.ofNat 48)) := by
  intro f
  induction f with
  | zero =>
    intro r hr
    have : r = 0 := Nat.le_zero.mp hr
    subst this
    exact ⟨fun c hc => absurd hc (List.not_mem_nil c), rfl, by simp [pushDigitsF], by simp⟩
  | succ f ih =>
    intro r hr
    rcases eq_or_ne r 0 with rfl | hr0
    · rw [show pushDigitsF (f + 1) 0 = [] from rfl]
      exact ⟨fun c hc => absurd hc (List.not_mem_nil c), rfl, by simp, by simp⟩
    · have hbr : pushDigitsF (f + 1) r =
          Char.ofNat (r % 10 + 48) :: pushDigitsF f (r / 10) := by
        rw [pushDigitsF, if_neg hr0]
      have hfuel : r / 10 ≤ f := by
        have := Nat.div_lt_self (Nat.pos_of_ne_zero hr0) (by norm_num : (1:Nat) < 10)
        omega
      obtain ⟨ihd, ihv, ihe, ihl⟩ := ih (r / 10) hfuel
      have hcf := charDigit_facts (r % 10) (Nat.mod_lt _ (by norm_num))
      refine ⟨?_, ?_, ?_, ?_⟩
      · intro c hc
        rw [hbr] at hc
        rcases List.mem_cons.mp hc with rfl | hc2
        · exact hcf.2
        · exact ihd c hc2
      · rw [hbr]
        have : numLE (Char.ofNat (r % 10 + 48) :: pushDigitsF f (r / 10)) =
            ((Char.ofNat (r % 10 + 48)).toNat - 48) + 10 * numLE (pushDigitsF f (r / 10)) :=
          rfl
        rw [this, ihv, hcf.1]
        omega
      · rw [hbr]
        simp [hr0]
      · intro _
        rw [hbr]
        rcases eq_or_ne (r / 10) 0 with hq | hq
        · have hnil : pushDigitsF f (r / 10) = [] := ihe.mpr hq
          rw [hnil]
          simp only [List.getLast?_singleton, ne_eq, Option.some.injEq]
          intro hc
          have := congrArg Char.toNat hc
          rw [hcf.1] at this
          have h48 : (Char.ofNat 48).toNat = 48 := by decide
          rw [h48] at this
          have hrlt : r < 10 := by omega
          rw [Nat.mod_eq_of_lt hrlt] at this
          omega
        · have hnil : pushDigitsF f (r / 10) ≠ [] := fun hc => hq (ihe.mp hc)
          rw [getLast?_cons_of_ne_nil _ hnil]
          exact ihl hq

theorem pushDigitsF_len : ∀ (f r : Nat), r ≤ f → ∀ d, r < 10 ^ d →
    (pushDigitsF f r).length ≤ d := by
  intro f
  induction f with
  | zero =>
    intro r hr d _
    have : r = 0 := Nat.le_zero.mp hr
    subst this
    simp [pushDigitsF]
  | succ f ih =>
    intro r hr d hd
    rcases eq_or_ne r 0 with rfl | hr0
    · simp [pushDigitsF]
    · rw [pushDigitsF, if_neg hr0]
      have hd1 : 1 ≤ d := by
        by_contra hc
        have : d = 0 := by omega
        subst this
        simp at hd
        omega
      have hfuel : r / 10 ≤ f := by
        have := Nat.div_lt_self (Nat.pos_of_ne_zero hr0) (by norm_num : (1:Nat) < 10)
        omega
      have hq : r / 10 < 10 ^ (d - 1) := by
        have h10 : 10 ^ d = 10 ^ (d - 1) * 10 := by
          rw [← pow_succ]
          congr 1
          omega
        rw [h10] at hd
        omega
      have := ih (r / 10) hfuel (d - 1) hq
      simp only [List.length_cons]
      omega

/-! ## `abs_divide_int` full specification -/

theorem absDivIntGo_len (k : Nat) : ∀ (ls : List Nat) (rem : Nat),
    (absDivIntGo k ls rem).1.length = ls.length := by
  intro ls
  induction ls with
  | nil => intro rem; rfl
  | cons d ds ih =>
    intro rem
    simp only [absDivIntGo, List.length_cons]
    rw [ih]

theorem absDivIntGo_spec (k : Nat) (hk1 : 1 ≤ k) (hkDB : k ≤ DB) :
    ∀ (ls : List Nat) (rem : Nat), BoundedMag ls → rem < k →
      (absDivIntGo k ls rem).2 = (rem * DB ^ ls.length + valNat ls.reverse) % k ∧
      valNat (absDivIntGo k ls rem).1.reverse =
        (rem * DB ^ ls.length + valNat ls.reverse) / k := by
  intro ls
  induction ls with
  | nil =>
    intro rem _ hrem
    simp only [absDivIntGo, List.length_nil, pow_zero, List.reverse_nil, valNat_nil,
      Nat.add_zero, Nat.mul_one]
    rw [Nat.mod_eq_of_lt hrem, Nat.div_eq_of_lt hrem]
    exact ⟨rfl, rfl⟩
  | cons d ds ih =>
    intro rem hb hrem
    have hd : d < DB := hb d (List.mem_cons_self ..)
    have hbds : BoundedMag ds := fun x hx => hb x (List.mem_cons_of_mem _ hx)
    have hrem2 : (rem * DB + d) % k < k := Nat.mod_lt _ (by omega)
    obtain ⟨ih2, ih1⟩ := ih ((rem * DB + d) % k) hbds hrem2
    have hcur : rem * DB + d < DB * k := by
      calc rem * DB + d < rem * DB + DB := by omega
        _ = (rem + 1) * DB := by ring
        _ ≤ k * DB := Nat.mul_le_mul_right _ (by omega)
        _ = DB * k := Nat.mul_comm ..
    have hqlt : (rem * DB + d) / k < DB := (Nat.div_lt_iff_lt_mul (by omega)).mpr
      (by omega)
    have hval : valNat (d :: ds).reverse = valNat ds.reverse + DB ^ ds.length * d := by
      rw [List.reverse_cons, valNat_append, List.length_reverse]
      simp [valNat_cons]
    have hT : rem * DB ^ (d :: ds).length + valNat (d :: ds).reverse =
        k * (DB ^ ds.length * ((rem * DB + d) / k)) +
          ((rem * DB + d) % k * DB ^ ds.length + valNat ds.reverse) := by
      rw [List.length_cons, hval, pow_succ]
      have hdm := Nat.div_add_mod (rem * DB + d) k
      calc rem * (DB ^ ds.length * DB) + (valNat ds.reverse + DB ^ ds.length * d)
          = DB ^ ds.length * (rem * DB + d) + valNat ds.reverse := by ring
        _ = DB ^ ds.length * (k * ((rem * DB + d) / k) + (rem * DB + d) % k) +
              valNat ds.reverse := by rw [hdm]
        _ = _ := by ring
    constructor
    · show (absDivIntGo k ds ((rem * DB + d) % k)).2 = _
      rw [ih2, hT, Nat.mul_add_mod]
    · show valNat (((rem * DB + d) / k % DB) :: (absDivIntGo k ds ((rem * DB + d) % k)).1).reverse = _
      rw [List.reverse_cons, valNat_append, List.length_reverse, absDivIntGo_len, ih1, hT]
      rw [Nat.mul_add_div (by omega), Nat.mod_eq_of_lt hqlt]
      simp [valNat_cons]
      ring
    
theorem absDivIntMag_spec (l : List Nat) (k : Nat) (hb : BoundedMag l) (hk1 : 1 ≤ k)
    (hkDB : k ≤ DB) :
    valNat (absDivIntMag l k).1 = valNat l / k ∧ (absDivIntMag l k).2 = valNat l % k := by
  have hbrev : BoundedMag l.reverse := fun x hx => hb x (List.mem_reverse.mp hx)
  obtain ⟨h2, h1⟩ := absDivIntGo_spec k hk1 hkDB l.reverse 0 hbrev (by omega)
  rw [List.reverse_reverse] at h1 h2
  constructor
  · show valNat (trimMag (absDivIntGo k l.reverse 0).1.reverse) = _
    rw [valNat_trimMag, h1]
    simp
  · show (absDivIntGo k l.reverse 0).2 = _
    rw [h2]
    simp

theorem length_dropWhile_le {α} (p : α → Bool) (l : List α) :
    (l.dropWhile p).length ≤ l.length := by
  induction l with
  | nil => simp
  | cons a t ih =>
    rw [List.dropWhile_cons]
    split
    · simp only [List.length_cons]
      omega
    · simp

theorem trimMag_length_le (l : List Nat) : (trimMag l).length ≤ l.length := by
  rw [trimMag, List.length_reverse]
  calc (l.reverse.dropWhile (· == 0)).length ≤ l.reverse.length :=
        length_dropWhile_le ..
    _ = l.length := List.length_reverse l

theorem absDivIntMag_len_le (l : List Nat) (k : Nat) :
    (absDivIntMag l k).1.length ≤ l.length := by
  show (trimMag (absDivIntGo k l.reverse 0).1.reverse).length ≤ _
  calc (trimMag (absDivIntGo k l.reverse 0).1.reverse).length
      ≤ (absDivIntGo k l.reverse 0).1.reverse.length := trimMag_length_le _
    _ = (absDivIntGo k l.reverse 0).1.length := List.length_reverse _
    _ = l.reverse.length := absDivIntGo_len ..
    _ = l.length := List.length_reverse _

theorem tsLoopF_nil : ∀ f, tsLoopF f [] = [] := by
  intro f
  cases f <;> rfl

theorem tsLoopF_spec : ∀ (f : Nat) (mag : List Nat), BoundedMag mag → NoTopZero mag →
    valNat mag + mag.length + 1 ≤ f →
    (∀ c ∈ tsLoopF f mag, isDigitCh c = true) ∧
    numLE (tsLoopF f mag) = valNat mag ∧
    (mag ≠ [] → tsLoopF f mag ≠ [] ∧ (tsLoopF f mag).getLast? ≠ some (Char.ofNat 48)) := by
  intro f
  induction f with
  | zero =>
    intro mag _ _ hf
    omega
  | succ f ih =>
    intro mag hb ht hf
    by_cases hm : mag.isEmpty = true
    · have hmag : mag = [] := by simpa [List.isEmpty_iff] using hm
      subst hmag
      rw [show tsLoopF (f + 1) [] = [] from rfl]
      exact ⟨fun c hc => absurd hc (List.not_mem_nil c), rfl, fun hc => absurd rfl hc⟩
    · have hmag : mag ≠ [] := by simpa [List.isEmpty_iff] using hm
      have hvpos : 1 ≤ valNat mag := valNat_pos ht hmag
      have h109 : (10 : Nat) ^ 9 = 1000000000 := by norm_num
      obtain ⟨hq, hr⟩ := absDivIntMag_spec mag 1000000000 hb (by norm_num)
        (by norm_num [DB])
      have hrlt : (absDivIntMag mag 1000000000).2 < 1000000000 := by
        rw [hr]
        exact Nat.mod_lt _ (by norm_num)
      obtain ⟨hdds, hvds, heds, hlds⟩ := pushDigitsF_spec
        (absDivIntMag mag 1000000000).2 (absDivIntMag mag 1000000000).2 le_rfl
      have hpd : pushDigitsF (absDivIntMag mag 1000000000).2
          (absDivIntMag mag 1000000000).2 = pushDigits (absDivIntMag mag 1000000000).2 := rfl
      rw [hpd] at hdds hvds heds hlds
      have hlen9 : (pushDigits (absDivIntMag mag 1000000000).2).length ≤ 9 :=
        pushDigitsF_len _ _ le_rfl 9 (by rw [h109]; exact hrlt)
      have hbr : tsLoopF (f + 1) mag =
          pushDigits (absDivIntMag mag 1000000000).2 ++
            (if (absDivIntMag mag 1000000000).1.isEmpty then []
             else List.replicate
               (9 - (pushDigits (absDivIntMag mag 1000000000).2).length)
               (Char.ofNat 48)) ++
            tsLoopF f (absDivIntMag mag 1000000000).1 := by
        rw [show tsLoopF (f + 1) mag = if mag.isEmpty = true then [] else
          pushDigits (absDivIntMag mag 1000000000).2 ++
            (if (absDivIntMag mag 1000000000).1.isEmpty then []
             else List.replicate
               (9 - (pushDigits (absDivIntMag mag 1000000000).2).length)
               (Char.ofNat 48)) ++
            tsLoopF f (absDivIntMag mag 1000000000).1 from rfl]
        rw [if_neg (by simp [hm])]
      by_cases hp1 : (absDivIntMag mag 1000000000).1.isEmpty = true
      · have hp1e : (absDivIntMag mag 1000000000).1 = [] := by
          simpa [List.isEmpty_iff] using hp1
        have hq0 : valNat mag / 1000000000 = 0 := by
          rw [← hq, hp1e]
          rfl
        have hveq : valNat mag = (absDivIntMag mag 1000000000).2 := by
          rw [hr]
          omega
        have hbr2 : tsLoopF (f + 1) mag = pushDigits (absDivIntMag mag 1000000000).2 := by
          rw [hbr, if_pos hp1, hp1e, tsLoopF_nil]
          simp
        rw [hbr2]
        refine ⟨hdds, by rw [hvds, hveq], fun _ => ?_⟩
        have hr0 : (absDivIntMag mag 1000000000).2 ≠ 0 := by omega
        exact ⟨fun hc => hr0 (heds.mp hc), hlds hr0⟩
      · have hp1ne : (absDivIntMag mag 1000000000).1 ≠ [] := by
          simpa [List.isEmpty_iff] using hp1
        have hb1 : BoundedMag (absDivIntMag mag 1000000000).1 :=
          absDivIntMag_bounded mag 1000000000
        have ht1 : NoTopZero (absDivIntMag mag 1000000000).1 :=
          absDivIntMag_noTop mag 1000000000
        have hfuel : valNat (absDivIntMag mag 1000000000).1 +
            (absDivIntMag mag 1000000000).1.length + 1 ≤ f := by
          have hlt : valNat (absDivIntMag mag 1000000000).1 < valNat mag := by
            rw [hq]
            omega
          have hll := absDivIntMag_len_le mag 1000000000
          omega
        obtain ⟨ihd, ihv, ihne⟩ := ih (absDivIntMag mag 1000000000).1 hb1 ht1 hfuel
        obtain ⟨ihne1, ihne2⟩ := ihne hp1ne
        have hbr2 : tsLoopF (f + 1) mag =
            (pushDigits (absDivIntMag mag 1000000000).2 ++
              List.replicate (9 - (pushDigits (absDivIntMag mag 1000000000).2).length)
                (Char.ofNat 48)) ++
            tsLoopF f (absDivIntMag mag 1000000000).1 := by
          rw [hbr, if_neg hp1]
        rw [hbr2]
        refine ⟨?_, ?_, fun _ => ⟨?_, ?_⟩⟩
        · intro c hc
          rcases List.mem_append.mp hc with hc1 | hc2
          · rcases List.mem_append.mp hc1 with hc3 | hc4
            · exact hdds c hc3
            · rw [List.eq_of_mem_replicate hc4]
              decide
          · exact ihd c hc2
        · rw [numLE_append, numLE_append, numLE_replicate_zero, hvds, ihv, hq]
          rw [List.length_append, List.length_replicate]
          rw [show (pushDigits (absDivIntMag mag 1000000000).2).length +
            (9 - (pushDigits (absDivIntMag mag 1000000000).2).length) = 9 by omega]
          rw [h109, hr]
          omega
        · intro hc
          rw [List.append_eq_nil] at hc
          exact ihne1 hc.2
        · rw [getLast?_append_of_ne_nil _ ihne1]
          exact ihne2

/-! ## The string constructor on all-digit strings -/

theorem mem_of_getLast?_eq {α} : ∀ {l : List α} {a : α}, l.getLast? = some a → a ∈ l := by
  intro l
  induction l with
  | nil => intro a h; cases h
  | cons b t ih =>
    intro a h
    cases t with
    | nil =>
      simp only [List.getLast?_singleton, Option.some.injEq] at h
      rw [h]
      exact List.mem_cons_self ..
    | cons c t' =>
      rw [List.getLast?_cons_cons] at h
      exact List.mem_cons_of_mem _ (ih h)

theorem fromChars_all_digits {s : List Char} (hne : s ≠ [])
    (hd : ∀ c ∈ s, isDigitCh c = true) (hnd : (s.head? == some '-') = false) :
    ∃ mag, fromChars s = Except.ok ({ data := trimMag mag, negative := false } : BigInt) ∧
      BoundedMag mag ∧ valNat mag = numBE s := by
  have hfc : fromChars s =
      (if (if (s.head? == some '-') = true then s.tail else s).isEmpty = true
       then Except.error ()
       else Except.map
         (fun mag => ({ data := trimMag mag, negative := s.head? == some '-' } : BigInt))
         (parseLoop [] (if (s.head? == some '-') = true then s.tail else s))) := rfl
  have hcond : ¬((s.head? == some '-') = true) := by
    rw [hnd]
    exact Bool.false_ne_true
  rw [if_neg hcond] at hfc
  obtain ⟨mag, hrun, hbm, hval⟩ := parseLoopF_ok s.length [] s le_rfl
    (fun x hx => absurd hx (List.not_mem_nil x)) hd
  refine ⟨mag, ?_, hbm, ?_⟩
  · rw [hfc, if_neg (by simpa [List.isEmpty_iff] using hne)]
    rw [show parseLoop [] s = parseLoopF s.length [] s from rfl, hrun]
    simp only [Except.map]
    rw [hnd]
  · rw [hval]
    simp

theorem fromChars_neg_all_digits {s : List Char} (hne : s ≠ [])
    (hd : ∀ c ∈ s, isDigitCh c = true) :
    ∃ mag, fromChars ('-' :: s) =
      Except.ok ({ data := trimMag mag, negative := true } : BigInt) ∧
      BoundedMag mag ∧ valNat mag = numBE s := by
  have hfc : fromChars ('-' :: s) =
      (if s.isEmpty = true then Except.error ()
       else Except.map
         (fun mag => ({ data := trimMag mag, negative := true } : BigInt))
         (parseLoop [] s)) := rfl
  obtain ⟨mag, hrun, hbm, hval⟩ := parseLoopF_ok s.length [] s le_rfl
    (fun x hx => absurd hx (List.not_mem_nil x)) hd
  refine ⟨mag, ?_, hbm, ?_⟩
  · rw [hfc, if_neg (by simpa [List.isEmpty_iff] using hne)]
    rw [show parseLoop [] s = parseLoopF s.length [] s from rfl, hrun]
    rfl
  · rw [hval]
    simp

theorem getLast?_some_of_ne_nil {α} : ∀ {l : List α}, l ≠ [] → ∃ c, l.getLast? = some c := by
  intro l
  induction l with
  | nil => intro h; exact absurd rfl h
  | cons a t ih =>
    intro _
    cases t with
    | nil => exact ⟨a, rfl⟩
    | cons b t2 =>
      obtain ⟨c, hc⟩ := ih (by simp)
      exact ⟨c, by rw [List.getLast?_cons_cons]; exact hc⟩

/-- C4: `from_string (to_string a) = a` for every (clean) `big_integer`;
`to_string` never emits a leading zero (except the single `"0"`) and never
emits a `"-0"`-prefixed string; and `to_string (from_string "-0") = "0"`. -/
theorem claim_C4 (a : BigInt) (h : Clean a) :
    fromChars (toStringB a) = Except.ok a ∧
    ((toStringB a).head? = some '0' → toStringB a = ['0']) ∧
    (∀ t : List Char, toStringB a ≠ '-' :: '0' :: t) ∧
    fromChars ['-', '0'] = Except.ok ({ data := [], negative := true } : BigInt) ∧
    toStringB ({ data := [], negative := true } : BigInt) = ['0'] := by
  have hc48 : Char.ofNat 48 = '0' := by decide
  have hc45 : Char.ofNat 45 = '-' := by decide
  have hm0 : fromChars ['-', '0'] =
      Except.ok ({ data := [], negative := true } : BigInt) := by rfl
  have hts0 : toStringB ({ data := [], negative := true } : BigInt) = ['0'] := by
    rw [show toStringB ({ data := [], negative := true } : BigInt) =
      [Char.ofNat 48] from rfl, hc48]
  obtain ⟨adata, aneg⟩ := a
  obtain ⟨⟨hbnd, htop⟩, hclean, hsz⟩ := h
  simp only at hbnd htop hclean
  by_cases hz : adata = []
  · subst hz
    have han : aneg = false := hclean rfl
    subst han
    have hts : toStringB ({ data := [], negative := false } : BigInt) = ['0'] := by
      rw [show toStringB ({ data := [], negative := false } : BigInt) =
        [Char.ofNat 48] from rfl, hc48]
    refine ⟨?_, fun _ => hts, ?_, hm0, hts0⟩
    · rw [hts]
      rfl
    · intro t hc
      rw [hts] at hc
      injection hc with h1 _
      exact absurd h1 (by decide)
  · obtain ⟨hdig, hnum, hlast'⟩ := tsLoopF_spec (valNat adata + adata.length + 1) adata
      hbnd htop le_rfl
    have htsl : tsLoopF (valNat adata + adata.length + 1) adata = tsLoop adata := rfl
    rw [htsl] at hdig hnum hlast'
    obtain ⟨hresne, hreslast⟩ := hlast' hz
    rw [hc48] at hreslast
    have hrevne : (tsLoop adata).reverse ≠ [] := by
      simpa [List.reverse_eq_nil_iff] using hresne
    have hrevdig : ∀ c ∈ (tsLoop adata).reverse, isDigitCh c = true := fun c hc =>
      hdig c (List.mem_reverse.mp hc)
    have hheadlast : (tsLoop adata).reverse.head? = (tsLoop adata).getLast? :=
      List.head?_reverse _
    obtain ⟨c0, hc0⟩ := getLast?_some_of_ne_nil hresne
    have hc0mem : c0 ∈ tsLoop adata := mem_of_getLast?_eq hc0
    have hc0dig : isDigitCh c0 = true := hdig c0 hc0mem
    have hc0ne : c0 ≠ '-' := by
      intro hcc
      rw [hcc] at hc0dig
      exact absurd hc0dig (by decide)
    have hc0ne0 : c0 ≠ '0' := by
      intro hcc
      rw [hcc] at hc0
      exact hreslast hc0
    cases aneg with
    | false =>
      have hbr : toStringB ({ data := adata, negative := false } : BigInt) =
          (tsLoop adata).reverse := by
        rw [show toStringB ({ data := adata, negative := false } : BigInt) =
          (if (isZero ({ data := adata, negative := false } : BigInt)) = true
           then [Char.ofNat 48]
           else (if (isNeg ({ data := adata, negative := false } : BigInt)) = true
                 then tsLoop adata ++ [Char.ofNat 45]
                 else tsLoop adata).reverse) from rfl]
        rw [if_neg (by simp [isZero, List.isEmpty_iff, hz]), if_neg (by simp [isNeg])]
      have hnd : ((tsLoop adata).reverse.head? == some '-') = false := by
        rw [hheadlast, hc0, beq_eq_false_iff_ne]
        simp [hc0ne]
      obtain ⟨mag, hok, hbm, hval⟩ := fromChars_all_digits hrevne hrevdig hnd
      have hmageq : trimMag mag = adata := by
        apply valNat_inj (boundedMag_trimMag hbm) hbnd (noTopZero_trimMag mag) htop
        rw [valNat_trimMag, hval, numBE_reverse, hnum]
      refine ⟨?_, ?_, ?_, hm0, hts0⟩
      · rw [hbr, hok, hmageq]
      · intro hhead
        rw [hbr] at hhead ⊢
        rw [hheadlast, hc0] at hhead
        injection hhead with h1
        exact absurd h1 hc0ne0
      · intro t hc
        rw [hbr] at hc
        have h2 : (tsLoop adata).reverse.head? = some '-' := by rw [hc]; rfl
        rw [hheadlast, hc0] at h2
        injection h2 with h1
        exact absurd h1 hc0ne
    | true =>
      have hneg : isNeg ({ data := adata, negative := true } : BigInt) = true := by
        simp [isNeg, isZero, List.isEmpty_iff, hz]
      have hbr : toStringB ({ data := adata, negative := true } : BigInt) =
          '-' :: (tsLoop adata).reverse := by
        rw [show toStringB ({ data := adata, negative := true } : BigInt) =
          (if (isZero ({ data := adata, negative := true } : BigInt)) = true
           then [Char.ofNat 48]
           else (if (isNeg ({ data := adata, negative := true } : BigInt)) = true
                 then tsLoop adata ++ [Char.ofNat 45]
                 else tsLoop adata).reverse) from rfl]
        rw [if_neg (by simp [isZero, List.isEmpty_iff, hz]), if_pos hneg]
        rw [List.reverse_append, hc45]
        rfl
      obtain ⟨mag, hok, hbm, hval⟩ := fromChars_neg_all_digits hrevne hrevdig
      have hmageq : trimMag mag = adata := by
        apply valNat_inj (boundedMag_trimMag hbm) hbnd (noTopZero_trimMag mag) htop
        rw [valNat_trimMag, hval, numBE_reverse, hnum]
      refine ⟨?_, ?_, ?_, hm0, hts0⟩
      · rw [hbr, hok, hmageq]
      · intro hhead
        rw [hbr] at hhead
        simp only [List.head?_cons, Option.some.injEq] at hhead
        exact absurd hhead (by decide)
      · intro t hc
        rw [hbr] at hc
        injection hc with _ h2
        have h3 : (tsLoop adata).reverse.head? = some '0' := by rw [h2]; rfl
        rw [hheadlast, hc0] at h3
        injection h3 with h1
        exact absurd h1 hc0ne0

/-- The round-trip instantiated at `a = -9876543210` (12 limbs are not needed:
the value spans two limbs and the digit loop runs two chunks). -/
theorem claim_C4_witness :
    fromChars (toStringB (ofIntB (-9876543210))) = Except.ok (ofIntB (-9876543210)) := by
  exact (claim_C4 (ofIntB (-9876543210))
    (by unfold Clean Wf BoundedMag NoTopZero SZMAX; decide)).1
